import Mathlib

/-!
Verification of the offline JD-to-CV keyword matching engine of
`utils/jd_optimizer.py`: a shallow embedding of the Python source into Lean,
followed by theorems settling the specification claims.

Python dictionaries are embedded as insertion-ordered association lists over a
JSON-like value type `Val`; Python strings are Lean `String`s; the SHA-256 hash
used by `job_hash` is implemented in full over `Nat` bytes; floats (only the
`coverage` percentage) are embedded as exact rationals.
-/

/-- Embeds the JSON-like values stored in the CV dictionary: strings, lists,
nested dictionaries (insertion-ordered association lists) and the rational
used for the `coverage` float. -/
inductive Val where
| vStr (s : String)
| vList (xs : List Val)
| vDict (kvs : List (String × Val))
| vRat (q : ℚ)

mutual
/-- Boolean equality on embedded values. -/
def valBeq : Val → Val → Bool
| .vStr a, .vStr b => a = b
| .vRat a, .vRat b => a = b
| .vList a, .vList b => valListBeq a b
| .vDict a, .vDict b => valDictBeq a b
| _, _ => false

/-- Boolean equality on lists of embedded values. -/
def valListBeq : List Val → List Val → Bool
| [], [] => true
| a :: as, b :: bs => valBeq a b && valListBeq as bs
| _, _ => false

/-- Boolean equality on association lists of embedded values. -/
def valDictBeq : List (String × Val) → List (String × Val) → Bool
| [], [] => true
| (k, v) :: as, (k2, v2) :: bs => k = k2 && valBeq v v2 && valDictBeq as bs
| _, _ => false
end

mutual
/-- Boolean equality on `Val` agrees with propositional equality. -/
theorem valBeq_iff : ∀ a b : Val, valBeq a b = true ↔ a = b
| .vStr a, .vStr b => by simp [valBeq]
| .vRat a, .vRat b => by simp [valBeq]
| .vList a, .vList b => by simp [valBeq, valListBeq_iff a b]
| .vDict a, .vDict b => by simp [valBeq, valDictBeq_iff a b]
| .vStr _, .vRat _ => by simp [valBeq]
| .vStr _, .vList _ => by simp [valBeq]
| .vStr _, .vDict _ => by simp [valBeq]
| .vRat _, .vStr _ => by simp [valBeq]
| .vRat _, .vList _ => by simp [valBeq]
| .vRat _, .vDict _ => by simp [valBeq]
| .vList _, .vStr _ => by simp [valBeq]
| .vList _, .vRat _ => by simp [valBeq]
| .vList _, .vDict _ => by simp [valBeq]
| .vDict _, .vStr _ => by simp [valBeq]
| .vDict _, .vRat _ => by simp [valBeq]
| .vDict _, .vList _ => by simp [valBeq]

/-- Boolean equality on `List Val` agrees with propositional equality. -/
theorem valListBeq_iff : ∀ a b : List Val, valListBeq a b = true ↔ a = b
| [], [] => by simp [valListBeq]
| x :: xs, y :: ys => by
  simp [valListBeq, valBeq_iff x y, valListBeq_iff xs ys]
| [], _ :: _ => by simp [valListBeq]
| _ :: _, [] => by simp [valListBeq]

/-- Boolean equality on `List (String × Val)` agrees with propositional
equality. -/
theorem valDictBeq_iff : ∀ a b : List (String × Val), valDictBeq a b = true ↔ a = b
| [], [] => by simp [valDictBeq]
| (k, v) :: xs, (k2, v2) :: ys => by
  simp [valDictBeq, valBeq_iff v v2, valDictBeq_iff xs ys, Prod.ext_iff,
    and_assoc]
| [], _ :: _ => by simp [valDictBeq]
| _ :: _, [] => by simp [valDictBeq]
end

instance : DecidableEq Val := fun a b => decidable_of_iff _ (valBeq_iff a b)

/-- A CV record: the Python `cv` dict, as an insertion-ordered association list. -/
abbrev Cv := List (String × Val)

/-- Dictionary lookup (`d.get(k)`), returning the first binding of `k`. -/
def dGet : List (String × Val) → String → Option Val
| [], _ => none
| (k1, v1) :: rest, k => if k1 = k then some v1 else dGet rest k

/-- Dictionary lookup with a default (`d.get(k, dflt)`). -/
def dGetD (d : List (String × Val)) (k : String) (dflt : Val) : Val :=
  (dGet d k).getD dflt

/-- Key membership test (`k in d`). -/
def dHas : List (String × Val) → String → Bool
| [], _ => false
| (k1, _) :: rest, k => k1 = k || dHas rest k

/-- Dictionary assignment `d[k] = v`: updates the binding in place when the key
exists (Python dicts keep the original insertion position) and appends a new
binding otherwise. -/
def dSet (d : List (String × Val)) (k : String) (v : Val) : List (String × Val) :=
  if dHas d k then d.map (fun p => if p.1 = k then (k, v) else p) else d ++ [(k, v)]

/-- Dictionary `d.setdefault(k, v)` restricted to its state effect. -/
def dSetD (d : List (String × Val)) (k : String) (v : Val) : List (String × Val) :=
  if dHas d k then d else d ++ [(k, v)]

/-- Python truthiness of an embedded value. -/
def truthy : Val → Bool
| .vStr s => !s.isEmpty
| .vList xs => !xs.isEmpty
| .vDict kvs => !kvs.isEmpty
| .vRat q => q ≠ 0

/-- The Python idiom `v or ""`: keeps a truthy value, replaces a falsy one
with the empty string. -/
def orEmpty (v : Val) : Val := if truthy v then v else .vStr ""

/-- Reads a value as a string; non-string values give `""` (the Python source
only reaches such reads on string-typed fields, which the theorems assume). -/
def asStr : Val → String
| .vStr s => s
| _ => ""

/-- Characters treated as whitespace by Python `str.strip` / `str.split`. -/
def isPySpace (c : Char) : Bool :=
  c = ' ' || c = '\t' || c = '\n' || c = '\r' || c = '\x0b' || c = '\x0c' ||
  c = '\x1c' || c = '\x1d' || c = '\x1e' || c = '\x1f' || c = '\x85' ||
  c = '\xa0' || c = ' ' || (' ' ≤ c && c ≤ ' ') ||
  c = ' ' || c = ' ' || c = ' ' || c = ' ' || c = '　'

/-- Characters at which Python `str.splitlines` breaks a line. -/
def isLineBreak (c : Char) : Bool :=
  c = '\n' || c = '\r' || c = '\x0b' || c = '\x0c' || c = '\x1c' || c = '\x1d' ||
  c = '\x1e' || c = '\x85' || c = ' ' || c = ' '

/-- List form of Python `str.strip()`: drop leading whitespace, then trailing. -/
def stripChars (l : List Char) : List Char :=
  (((l.dropWhile isPySpace).reverse.dropWhile isPySpace)).reverse

/-- Python `s.strip()`. -/
def pyStrip (s : String) : String := String.mk (stripChars s.data)

/-- Python lowercasing of one character: ASCII letters plus the uppercase
Romanian diacritics appearing in the stopword sets. -/
def pyLowerChar (c : Char) : Char :=
  if 'A' ≤ c && c ≤ 'Z' then Char.ofNat (c.toNat + 32)
  else if c = 'Ă' then 'ă' else if c = 'Â' then 'â' else if c = 'Î' then 'î'
  else if c = 'Ș' then 'ș' else if c = 'Ş' then 'ş' else if c = 'Ț' then 'ț'
  else if c = 'Ţ' then 'ţ' else c

/-- Python `s.lower()` (restricted to the alphabets the source manipulates). -/
def pyLower (s : String) : String := String.mk (s.data.map pyLowerChar)

/-- Consumes the `\n` of a `\r\n` pair after the `\r` was consumed. -/
def dropLeadingLf : List Char → List Char
| [] => []
| c :: rest => if c = '\n' then rest else c :: rest

/-- Worker for `pySplitlines`: accumulates the current line in reverse; a
`\r\n` pair counts as one line break. The fuel (at least the input length)
makes the recursion structural, each step consuming at least one character. -/
def splitlinesGo : Nat → List Char → List Char → List (List Char)
| _, [], acc => if acc.isEmpty then [] else [acc.reverse]
| 0, _ :: _, _ => []
| fuel + 1, c :: rest, acc =>
  if isLineBreak c then
    acc.reverse ::
      splitlinesGo fuel (if c = '\r' then dropLeadingLf rest else rest) []
  else splitlinesGo fuel rest (c :: acc)

/-- Python `s.splitlines()`. -/
def pySplitlines (s : String) : List String :=
  (splitlinesGo s.data.length s.data []).map String.mk

/-- Python `s.split()` with no argument: split on whitespace runs, dropping
empty pieces. -/
def pySplitWs (s : String) : List String :=
  ((s.data.splitOnP isPySpace).map String.mk).filter (fun x => !x.isEmpty)

/-- Python `"\n".join(lines)`. -/
def joinNl : List String → String
| [] => ""
| [x] => x
| x :: xs => x ++ "\n" ++ joinNl xs

/-- Bool test for a prefix of a character list. -/
def startsWithChars : List Char → List Char → Bool
| [], _ => true
| _ :: _, [] => false
| a :: as, b :: bs => a = b && startsWithChars as bs

/-- Bool test for containment of `needle` in `hay` (`needle in hay` on Python
strings, via its list of characters). -/
def infixChars (needle : List Char) : List Char → Bool
| [] => startsWithChars needle []
| h :: t => startsWithChars needle (h :: t) || infixChars needle t

/-- Python substring test `needle in hay`. -/
def pyIn (needle hay : String) : Bool := infixChars needle.data hay.data

mutual
/-- Python `repr` of an embedded value (used by `str()` on non-strings). -/
def pyRepr : Val → String
| .vStr s => "\x27" ++ s ++ "\x27"
| .vRat q => toString q
| .vList xs => "[" ++ pyReprList xs ++ "]"
| .vDict kvs => "\x7b" ++ pyReprDict kvs ++ "\x7d"

/-- Comma-joined reprs of list elements. -/
def pyReprList : List Val → String
| [] => ""
| [x] => pyRepr x
| x :: xs => pyRepr x ++ ", " ++ pyReprList xs

/-- Comma-joined reprs of dict items. -/
def pyReprDict : List (String × Val) → String
| [] => ""
| [(k, v)] => "\x27" ++ k ++ "\x27: " ++ pyRepr v
| (k, v) :: kvs => "\x27" ++ k ++ "\x27: " ++ pyRepr v ++ ", " ++ pyReprDict kvs
end

/-- Python `str(x)`. -/
def pyStr : Val → String
| .vStr s => s
| v => pyRepr v

/-! SHA-256 over byte lists, as used by `hashlib.sha256` in `job_hash`.
Words are `Nat`s reduced mod `2 ^ 32`. -/

/-- UTF-8 encoding of one character. -/
def charUtf8 (c : Char) : List Nat :=
  let n := c.toNat
  if n < 128 then [n]
  else if n < 2048 then [192 ||| (n >>> 6), 128 ||| (n &&& 63)]
  else if n < 65536 then
    [224 ||| (n >>> 12), 128 ||| ((n >>> 6) &&& 63), 128 ||| (n &&& 63)]
  else
    [240 ||| (n >>> 18), 128 ||| ((n >>> 12) &&& 63),
     128 ||| ((n >>> 6) &&& 63), 128 ||| (n &&& 63)]

/-- UTF-8 bytes of a string (`s.encode("utf-8")`). -/
def utf8Bytes (s : String) : List Nat := s.data.flatMap charUtf8

/-- The 64 SHA-256 round constants. -/
def shaK : List Nat :=
  [1116352408, 1899447441, 3049323471, 3921009573, 961987163, 1508970993,
   2453635748, 2870763221, 3624381080, 310598401, 607225278, 1426881987,
   1925078388, 2162078206, 2614888103, 3248222580, 3835390401, 4022224774,
   264347078, 604807628, 770255983, 1249150122, 1555081692, 1996064986,
   2554220882, 2821834349, 2952996808, 3210313671, 3336571891, 3584528711,
   113926993, 338241895, 666307205, 773529912, 1294757372, 1396182291,
   1695183700, 1986661051, 2177026350, 2456956037, 2730485921, 2820302411,
   3259730800, 3345764771, 3516065817, 3600352804, 4094571909, 275423344,
   430227734, 506948616, 659060556, 883997877, 958139571, 1322822218,
   1537002063, 1747873779, 1955562222, 2024104815, 2227730452, 2361852424,
   2428436474, 2756734187, 3204031479, 3329325298]

/-- The SHA-256 initial hash state. -/
def shaH0 : List Nat :=
  [1779033703, 3144134277, 1013904242, 2773480762, 1359893119, 2600822924,
   528734635, 1541459225]

/-- Right rotation of a 32-bit word. -/
def rotr (n x : Nat) : Nat := ((x >>> n) ||| (x <<< (32 - n))) % 4294967296

/-- SHA-256 padding: append `0x80`, zeros, and the 8-byte big-endian bit
length, to a multiple of 64 bytes. -/
def shaPad (msg : List Nat) : List Nat :=
  let len := msg.length
  let zeros := (55 + 64 - len % 64) % 64
  let bitLen := 8 * len
  msg ++ [128] ++ List.replicate zeros 0 ++
    ((List.range 8).map (fun i => (bitLen >>> (56 - 8 * i)) % 256))

/-- Splits a padded message into 64-byte blocks; the fuel argument (at least
the message length) makes the recursion structural, each step consuming at
least one byte. -/
def shaBlocksFuel : Nat → List Nat → List (List Nat)
| 0, _ => []
| _, [] => []
| fuel + 1, a :: rest => ((a :: rest).take 64) :: shaBlocksFuel fuel ((a :: rest).drop 64)

/-- Splits a padded message into 64-byte blocks. -/
def shaBlocks (l : List Nat) : List (List Nat) := shaBlocksFuel l.length l

/-- The 16 initial 32-bit message-schedule words of one block. -/
def shaWords0 (block : List Nat) : List Nat :=
  (List.range 16).map (fun i =>
    (block.getD (4 * i) 0) <<< 24 + (block.getD (4 * i + 1) 0) <<< 16 +
    (block.getD (4 * i + 2) 0) <<< 8 + block.getD (4 * i + 3) 0)

/-- Extends the message schedule to 64 words. -/
def shaSchedule (block : List Nat) : List Nat :=
  (List.range 48).foldl
    (fun w _ =>
      let i := w.length
      let w15 := w.getD (i - 15) 0
      let w2 := w.getD (i - 2) 0
      let s0 := (rotr 7 w15) ^^^ (rotr 18 w15) ^^^ (w15 >>> 3)
      let s1 := (rotr 17 w2) ^^^ (rotr 19 w2) ^^^ (w2 >>> 10)
      w ++ [(w.getD (i - 16) 0 + s0 + w.getD (i - 7) 0 + s1) % 4294967296])
    (shaWords0 block)

/-- One SHA-256 compression round. -/
def shaRound (st : List Nat) (kw : Nat × Nat) : List Nat :=
  let a := st.getD 0 0
  let b := st.getD 1 0
  let c := st.getD 2 0
  let d := st.getD 3 0
  let e := st.getD 4 0
  let f := st.getD 5 0
  let g := st.getD 6 0
  let h := st.getD 7 0
  let s1 := (rotr 6 e) ^^^ (rotr 11 e) ^^^ (rotr 25 e)
  let ch := (e &&& f) ^^^ ((4294967295 - e) &&& g)
  let t1 := (h + s1 + ch + kw.1 + kw.2) % 4294967296
  let s0 := (rotr 2 a) ^^^ (rotr 13 a) ^^^ (rotr 22 a)
  let mj := (a &&& b) ^^^ (a &&& c) ^^^ (b &&& c)
  let t2 := (s0 + mj) % 4294967296
  [(t1 + t2) % 4294967296, a, b, c, (d + t1) % 4294967296, e, f, g]

/-- Compresses one block into the running hash state. -/
def shaCompress (hs : List Nat) (block : List Nat) : List Nat :=
  let st := (shaK.zip (shaSchedule block)).foldl shaRound hs
  (hs.zip st).map (fun p => (p.1 + p.2) % 4294967296)

/-- Hex digit character for a value below 16. -/
def hexDigit (n : Nat) : Char :=
  "0123456789abcdef".data.getD n '0'

/-- Fixed-width 8-digit hex rendering of a 32-bit word. -/
def toHex8 (w : Nat) : String :=
  String.mk ((List.range 8).map (fun i => hexDigit ((w >>> (28 - 4 * i)) &&& 15)))

/-- Full SHA-256 hex digest of a byte list. -/
def sha256Hex (msg : List Nat) : String :=
  String.join (((shaBlocks (shaPad msg)).foldl shaCompress shaH0).map toHex8)

/-- Embeds `job_hash` (utils/jd_optimizer.py:57-59): first 16 hex characters of
the SHA-256 digest of the stripped UTF-8 text. -/
def job_hash (jd_text : String) : String :=
  ((sha256Hex (utf8Bytes (pyStrip jd_text))).data.take 16).asString

/-! Language detection and keyword extraction (utils/jd_optimizer.py:65-158). -/

/-- The English stopword set `_STOP_EN`. -/
def STOP_EN : List String :=
  ["and", "or", "the", "a", "an", "to", "of", "in", "on", "for", "with", "as",
   "at", "by", "from", "is", "are", "be", "will", "you", "we", "our", "your",
   "this", "that", "these", "those", "it", "they", "their", "them", "us",
   "who", "what", "when", "where", "job", "role", "work", "team", "years",
   "year", "experience", "skills", "skill", "responsibilities",
   "responsibility", "required", "requirements", "preferred", "plus", "nice",
   "have"]

/-- The Romanian stopword set `_STOP_RO`. -/
def STOP_RO : List String :=
  ["și", "si", "sau", "un", "o", "unei", "ale", "al", "a", "la", "în", "in",
   "pe", "pentru", "cu", "ca", "din", "este", "sunt", "fi", "vei", "voi",
   "tu", "noi", "nostru", "noastra", "acest", "aceasta", "aceste", "acestia",
   "job", "rol", "munca", "echipa", "ani", "an", "experiență", "experienta",
   "abilități", "abilitati", "competențe", "competente", "responsabilități",
   "responsabilitati", "cerințe", "cerinte", "preferabil", "constitue",
   "avantaj"]

/-- The `_TECH_HINTS` keep-list. -/
def TECH_HINTS : List String :=
  ["c#", "c++", "go", "aws", "gcp", "azure", "siem", "soar", "edr", "vpn",
   "lan", "wan", "sso", "mfa", "iam", "soc", "dfir", "xdr", "waf", "ids",
   "ips", "api", "sql", "splunk", "sentinel"]

/-- The `_RO_DIACRITICS` character set. -/
def RO_DIACRITICS : List Char := ['ă', 'â', 'î', 'ș', 'ş', 'ț', 'ţ']

/-- Embeds `detect_lang` (utils/jd_optimizer.py:86-96). -/
def detect_lang (text : String) : String :=
  let t := pyLower text
  let ro_diac := (t.data.filter (fun ch => RO_DIACRITICS.contains ch)).length
  let ro_hits :=
    ((["responsabilități", "cerințe", "experiență", "competențe"] :
      List String).filter (fun w => pyIn w t)).length
  let en_hits :=
    ((["responsibilities", "requirements", "experience", "skills"] :
      List String).filter (fun w => pyIn w t)).length
  if ro_diac + ro_hits > en_hits then "ro" else "en"

/-- ASCII letters and digits, the characters starting a token. -/
def isAlnumAscii (c : Char) : Bool :=
  ('a' ≤ c && c ≤ 'z') || ('A' ≤ c && c ≤ 'Z') || ('0' ≤ c && c ≤ '9')

/-- Characters allowed after the first one in a token
(`[a-zA-Z0-9\+\#\.\-]`). -/
def isTokenChar (c : Char) : Bool :=
  isAlnumAscii c || c = '+' || c = '#' || c = '.' || c = '-'

/-- Left-to-right scan equivalent to
`re.findall(r"[a-zA-Z0-9][a-zA-Z0-9\+\#\.\-]{1,}", ...)`: at an alphanumeric
character, greedily take the maximal run of at least one further token
character; otherwise advance one character. -/
def tokenizeGo : Nat → List Char → List String
| 0, _ => []
| _, [] => []
| fuel + 1, c :: rest =>
  if isAlnumAscii c then
    let run := rest.takeWhile isTokenChar
    if run.isEmpty then tokenizeGo fuel rest
    else String.mk (c :: run) :: tokenizeGo fuel (rest.drop run.length)
  else tokenizeGo fuel rest

/-- Embeds `_tokenize` (utils/jd_optimizer.py:99-101); the fuel (the text
length) makes the scan structural, each step consuming at least one
character. -/
def tokenize (text : String) : List String :=
  tokenizeGo (pyLower text).data.length (pyLower text).data

/-- Embeds `_ngrams` (utils/jd_optimizer.py:104-108). -/
def ngrams (tokens : List String) (n : Nat) : List String :=
  (List.range (tokens.length + 1 - n)).map
    (fun i => " ".intercalate ((tokens.drop i).take n))

/-- Worker for `_dedupe_keep_order`, carrying the `seen` set of lowercase
keys. -/
def dedupeGo (seen : List String) : List String → List String
| [] => []
| it :: rest =>
  let s := pyStrip it
  if s.isEmpty then dedupeGo seen rest
  else
    let k := pyLower s
    if seen.contains k then dedupeGo seen rest
    else s :: dedupeGo (k :: seen) rest

/-- Embeds `_dedupe_keep_order` (utils/jd_optimizer.py:111-123). -/
def dedupe_keep_order (items : List String) : List String := dedupeGo [] items

/-- The `seen` set of `dedupeGo` after processing a list. -/
def seenAfter (seen : List String) : List String → List String
| [] => seen
| it :: rest =>
  let s := pyStrip it
  if s.isEmpty then seenAfter seen rest
  else
    let k := pyLower s
    if seen.contains k then seenAfter seen rest
    else seenAfter (k :: seen) rest

/-- Python `re.fullmatch(r"\d+", t)` as a Bool. -/
def isAllDigits (t : String) : Bool :=
  !t.isEmpty && t.data.all (fun c => '0' ≤ c && c ≤ '9')

/-- The three skip-filters of the singles loop in `extract_keywords`. -/
def keepSingle (stop : List String) (t : String) : Bool :=
  !stop.contains t && !isAllDigits t && !(t.length ≤ 2 && !TECH_HINTS.contains t)

/-- Keeps an n-gram none of whose whitespace-split words is a stopword. -/
def gramKeep (stop : List String) (g : String) : Bool :=
  !(pySplitWs g).any (fun w => stop.contains w)

/-- The candidate stream `singles + bigrams + trigrams` of `extract_keywords`. -/
def candidateStream (text lang : String) : List String :=
  let tokens := tokenize text
  let stop := if lang = "ro" then STOP_RO else STOP_EN
  let singles := tokens.filter (keepSingle stop)
  let bigrams := (ngrams tokens 2).filter (gramKeep stop)
  let trigrams := (ngrams tokens 3).filter (gramKeep stop)
  singles ++ bigrams ++ trigrams

/-- Keys of the `freq` dict in insertion order (first occurrence). -/
def firstSeen (l : List String) : List String :=
  l.foldl (fun acc c => if acc.contains c then acc else acc ++ [c]) []

/-- Inserts into a list sorted by the strict order `lt`. -/
def insertByLt {α : Type} (lt : α → α → Bool) (x : α) : List α → List α
| [] => [x]
| y :: ys => if lt x y then x :: y :: ys else y :: insertByLt lt x ys

/-- Insertion sort by the strict order `lt`; for a strict total order this is
the unique sorted arrangement, hence equals the stable Python
`sorted(..., reverse=True)` result. -/
def sortByLt {α : Type} (lt : α → α → Bool) (l : List α) : List α :=
  l.foldr (insertByLt lt) []

/-- Strict ranking order of `sorted(freq.items(), key=(count, len),
reverse=True)` on first-occurrence-indexed keys: larger count first, then
longer string, then earlier insertion index (stability). -/
def rankLt (cnt : String → Nat) (a b : Nat × String) : Bool :=
  cnt b.2 < cnt a.2 ||
    (cnt a.2 = cnt b.2 &&
      (b.2.length < a.2.length || (a.2.length = b.2.length && a.1 < b.1)))

/-- The ranked keyword list `kws` of `extract_keywords` (line 148). -/
def rankedKeywords (text lang : String) : List String :=
  let cands := candidateStream text lang
  let keys := firstSeen cands
  (sortByLt (rankLt (fun k => cands.count k)) keys.enum).map (fun p => p.2)

/-- The `cleaned` list of `extract_keywords` (lines 150-156): ranked keywords
of length at most 42 containing fewer than 4 spaces. -/
def rankedCleaned (text lang : String) : List String :=
  (rankedKeywords text lang).filter
    (fun k => !(42 < k.length) && !(4 ≤ k.data.count ' '))

/-- Embeds `extract_keywords` (utils/jd_optimizer.py:126-158). -/
def extract_keywords (text lang : String) (max_keywords : Nat) : List String :=
  (dedupe_keep_order (rankedCleaned text lang)).take max_keywords

/-! CV text extraction and the coverage scorer
(utils/jd_optimizer.py:164-241). -/

/-- One `isinstance(v, str) and v.strip()` guarded part. -/
def stripIfStr : Option Val → List String
| some (.vStr s) => if (pyStrip s).isEmpty then [] else [pyStrip s]
| _ => []

/-- The experience-entry fields read by `_cv_to_text`. -/
def expFields : List String :=
  ["functie", "angajator", "titlu", "tehnologii", "activitati", "sector"]

/-- The education-entry fields read by `_cv_to_text`. -/
def eduFields : List String := ["titlu", "organizatie", "descriere"]

/-- String parts of one experience/education entry dict. -/
def dictStrParts (fields : List String) (e : Val) : List String :=
  match e with
  | .vDict d => fields.flatMap (fun k => stripIfStr (dGet d k))
  | _ => []

/-- Embeds `_cv_to_text` (utils/jd_optimizer.py:164-218). -/
def cv_to_text (cv : Cv) : String :=
  let p1 := (["modern_skills_headline", "modern_tools", "modern_certs",
    "modern_keywords_extra"] : List String).flatMap
    (fun k => stripIfStr (dGet cv k))
  let p2 := match dGet cv "rezumat_bullets" with
    | some (.vList bs) => bs.flatMap (fun b =>
        let s := pyStrip (pyStr b)
        if s.isEmpty then [] else [s])
    | _ => match dGet cv "rezumat" with
      | some (.vStr r) => if (pyStrip r).isEmpty then [] else [pyStrip r]
      | _ => []
  let p3 := match dGet cv "experienta" with
    | some (.vList es) => es.flatMap (dictStrParts expFields)
    | _ => []
  let p4 := match dGet cv "educatie" with
    | some (.vList eds) => eds.flatMap (dictStrParts eduFields)
    | _ => []
  let p5 := match dGet cv "limbi_straine" with
    | some (.vList ls) => ls.flatMap (fun l => match l with
      | .vDict d => [pyStrip (pyStr (dGetD d "limba" (.vStr "")) ++ " " ++
          pyStr (dGetD d "nivel" (.vStr "")))]
      | _ => [])
    | _ => []
  joinNl (p1 ++ p2 ++ p3 ++ p4 ++ p5)

/-- The present/missing loop of `_presence_score`, in order. -/
def presenceSplit (t : String) : List String → List String × List String
| [] => ([], [])
| kw :: rest =>
  let k := pyLower (pyStrip kw)
  let pm := presenceSplit t rest
  if k.isEmpty then pm
  else if pyIn k t then (kw :: pm.1, pm.2) else (pm.1, kw :: pm.2)

/-- Embeds `_presence_score` (utils/jd_optimizer.py:221-241); the float
coverage is embedded as an exact rational. -/
def presence_score (cv_text : String) (keywords : List String) :
    List String × List String × ℚ :=
  let t := pyLower cv_text
  let pm := presenceSplit t keywords
  let total : Nat := max 1 keywords.length
  (pm.1, pm.2, ((pm.1.length : ℚ) / (total : ℚ)) * 100)

/-! Session state: `ensure_jd_state`, analysis persistence and the apply
helpers (utils/jd_optimizer.py:13-59, 247-368). The Python functions mutate
the `cv` dict in place; the embedding passes the updated record explicitly. -/

/-- The `jd_state` sub-dictionary of a CV (empty when absent or ill-shaped). -/
def jdStateOf (cv : Cv) : List (String × Val) :=
  match dGet cv "jd_state" with
  | some (.vDict d) => d
  | _ => []

/-- Replaces the `jd_state` sub-dictionary. -/
def setJdState (cv : Cv) (js : List (String × Val)) : Cv :=
  dSet cv "jd_state" (.vDict js)

/-- Line 23-24 of `ensure_jd_state`: copy `jd_text` into a missing
`job_description`. -/
def ensureCopyJd (cv : Cv) : Cv :=
  if !dHas cv "job_description" && dHas cv "jd_text" then
    dSet cv "job_description" (orEmpty (dGetD cv "jd_text" (.vStr "")))
  else cv

/-- Lines 32-35 of `ensure_jd_state`: replace a non-dict `jd_state`. -/
def ensureStateDict (cv : Cv) : Cv :=
  match dGet cv "jd_state" with
  | some (.vDict _) => cv
  | _ => dSet cv "jd_state" (.vDict [])

/-- Lines 37-40 of `ensure_jd_state`: the four `st.setdefault` calls. -/
def ensureStateKeys (js : List (String × Val)) : List (String × Val) :=
  dSetD (dSetD (dSetD (dSetD js "active_job_id" (.vStr "")) "jobs" (.vDict []))
    "current_role_hint" (.vStr "")) "last_jd_hash" (.vStr "")

/-- Embeds `ensure_jd_state` (utils/jd_optimizer.py:13-40). -/
def ensure_jd_state (cv : Cv) : Cv :=
  let cv := ensureCopyJd cv
  let cv := dSetD cv "job_description" (.vStr "")
  let cv := dSetD cv "jd_text" (orEmpty (dGetD cv "job_description" (.vStr "")))
  let cv := dSetD cv "jd_state" (.vDict [])
  let cv := ensureStateDict cv
  setJdState cv (ensureStateKeys (jdStateOf cv))

/-- Embeds `get_current_jd` (utils/jd_optimizer.py:43-48), returning the
updated record together with the stripped JD text. -/
def get_current_jd (cv : Cv) : Cv × String :=
  let cv := ensure_jd_state cv
  let jd := pyStrip (asStr (orEmpty (dGetD cv "job_description" (.vStr ""))))
  if jd.isEmpty then (cv, pyStrip (asStr (orEmpty (dGetD cv "jd_text" (.vStr "")))))
  else (cv, jd)

/-- Embeds `set_current_jd` (utils/jd_optimizer.py:51-54). -/
def set_current_jd (cv : Cv) (text : String) : Cv :=
  let cv := ensure_jd_state cv
  let cv := dSet cv "job_description" (.vStr text)
  dSet cv "jd_text" (.vStr text)

/-- Line 263-264 of `analyze_jd`: store a nonempty role hint in the state. -/
def analyzeRoleHint (cv : Cv) (role_hint : String) : Cv :=
  if !role_hint.isEmpty then
    setJdState cv (dSet (jdStateOf cv) "current_role_hint" (.vStr role_hint))
  else cv

/-- Line 279 of `analyze_jd`: clear the active pointer on an empty JD. -/
def analyzeSetActiveEmpty (cv : Cv) : Cv :=
  setJdState cv (dSet (jdStateOf cv) "active_job_id" (.vStr ""))

/-- Lines 293-305 of `analyze_jd`: store the analysis under its hash, move the
active pointer and mirror the analysis under `ats_analysis`. -/
def analyzePersist (cv : Cv) (jid : String) (analysis : Val) : Cv :=
  let js := jdStateOf cv
  let jobs := match dGet js "jobs" with
    | some (.vDict j) => j
    | _ => []
  let js := dSet js "jobs" (.vDict (dSet jobs jid analysis))
  let js := dSet js "active_job_id" (.vStr jid)
  let js := dSet js "last_jd_hash" (.vStr jid)
  let cv := setJdState cv js
  dSet cv "ats_analysis" analysis

/-- Line 274 of `analyze_jd`: the defensive `profile_id` read. -/
def profileIdOf (profile : Option Val) : Val :=
  match profile with
  | some (.vDict d) => orEmpty (dGetD d "id" (.vStr ""))
  | _ => Val.vStr ""

/-- Lines 269 of `analyze_jd`: `role_hint or st.get("current_role_hint") or ""`
evaluated after the role hint was stored. -/
def roleHintValOf (cv : Cv) (role_hint : String) : Val :=
  if !role_hint.isEmpty then Val.vStr role_hint
  else orEmpty (dGetD (jdStateOf cv) "current_role_hint" (.vStr ""))

/-- Lines 266-291 of `analyze_jd`: the analysis payload, empty for a blank JD
and filled from the extraction/scoring pipeline otherwise. -/
def analysisValOf (cv : Cv) (role_hint jd lang jid : String)
    (profile : Option Val) (max_keywords : Nat) : Val :=
  if jd.isEmpty then
    Val.vDict
      [("hash", .vStr jid), ("lang", .vStr lang),
       ("role_hint", roleHintValOf cv role_hint),
       ("keywords", .vList []), ("present", .vList []), ("missing", .vList []),
       ("coverage", .vRat 0), ("profile_id", profileIdOf profile)]
  else
    let keywords := extract_keywords jd lang max_keywords
    let pmc := presence_score (cv_to_text cv) keywords
    Val.vDict
      [("hash", .vStr jid), ("lang", .vStr lang),
       ("role_hint", roleHintValOf cv role_hint),
       ("keywords", .vList (keywords.map Val.vStr)),
       ("present", .vList (pmc.1.map Val.vStr)),
       ("missing", .vList (pmc.2.1.map Val.vStr)),
       ("coverage", .vRat pmc.2.2), ("profile_id", profileIdOf profile)]

/-- The state effect of `analyze_jd` after the role hint was stored: clear the
active pointer for a blank JD, persist the analysis otherwise. -/
def analyzeState (cv : Cv) (jd jid : String) (analysis : Val) : Cv :=
  if jd.isEmpty then analyzeSetActiveEmpty cv
  else analyzePersist cv jid analysis

/-- Embeds `analyze_jd` (utils/jd_optimizer.py:247-307): analyzes the current
JD, persists the analysis under its hash and returns `(updated cv, analysis)`. -/
def analyze_jd (cv : Cv) (role_hint : String) (profile : Option Val)
    (max_keywords : Nat) : Cv × Val :=
  let cvjd := get_current_jd (ensure_jd_state cv)
  let cv := analyzeRoleHint cvjd.1 role_hint
  let jd := pyStrip cvjd.2
  let lang := if !jd.isEmpty then detect_lang jd else "en"
  let jid := if !jd.isEmpty then job_hash jd else ""
  let analysis := analysisValOf cv role_hint jd lang jid profile max_keywords
  (analyzeState cv jd jid analysis, analysis)

/-- Embeds `get_current_analysis` (utils/jd_optimizer.py:310-320): returns the
cached active analysis if one is stored, else falls back to `analyze_jd`. -/
def get_current_analysis (cv : Cv) : Cv × Val :=
  let cv := ensure_jd_state cv
  let js := jdStateOf cv
  let fallback := analyze_jd cv
    (asStr (orEmpty (dGetD js "current_role_hint" (.vStr "")))) none 80
  match dGetD js "jobs" (.vDict []) with
  | .vDict jobs =>
    match orEmpty (dGetD js "active_job_id" (.vStr "")) with
    | .vStr jid =>
      if !jid.isEmpty && dHas jobs jid then (cv, dGetD jobs jid (.vDict []))
      else fallback
    | _ => fallback
  | _ => fallback

/-- Embeds `auto_update_on_change` (utils/jd_optimizer.py:323-337): re-analyzes
only when the JD hash differs from the stored one. -/
def auto_update_on_change (cv : Cv) (profile : Option Val) : Cv :=
  let cv := ensure_jd_state cv
  let cvjd := get_current_jd cv
  let cv := cvjd.1
  let jd := pyStrip cvjd.2
  if jd.isEmpty then cv
  else
    let jid := job_hash jd
    let js := jdStateOf cv
    let prev := asStr (orEmpty (dGetD js "last_jd_hash" (.vStr "")))
    if jid = prev && dGet js "active_job_id" = some (.vStr jid) then cv
    else (analyze_jd cv (asStr (orEmpty (dGetD js "current_role_hint" (.vStr ""))))
      profile 80).1

/-- Embeds `apply_auto_to_modern_skills` (utils/jd_optimizer.py:343-356). -/
def apply_auto_to_modern_skills (cv : Cv) (analysis : Val) : Cv :=
  match analysis with
  | .vDict d =>
    match dGetD d "keywords" (.vList []) with
    | .vList kws =>
      if kws.isEmpty then cv
      else
        let existing := pyStrip (asStr (orEmpty (dGetD cv "modern_keywords_extra" (.vStr ""))))
        let existingList := ((pySplitlines existing).map pyStrip).filter
          (fun x => !x.isEmpty)
        let newOnes := (kws.map (fun x => pyStrip (pyStr x))).filter
          (fun x => !x.isEmpty)
        let merged := dedupe_keep_order (existingList ++ newOnes)
        dSet cv "modern_keywords_extra" (.vStr (joinNl (merged.take 80)))
    | _ => cv
  | _ => cv

/-- Embeds `apply_missing_to_extra_keywords` (utils/jd_optimizer.py:359-368):
merges up to `limit` missing keywords of the current analysis into the
`modern_keywords_extra` newline list, deduplicating case-insensitively and
truncating to 80 entries. -/
def apply_missing_to_extra_keywords (cv : Cv) (limit : Nat) : Cv :=
  let cva := get_current_analysis cv
  let cv := cva.1
  match cva.2 with
  | .vDict d =>
    match dGetD d "missing" (.vList []) with
    | .vList ms =>
      if ms.isEmpty then cv
      else
        let existing := pyStrip (asStr (orEmpty (dGetD cv "modern_keywords_extra" (.vStr ""))))
        let existingList := ((pySplitlines existing).map pyStrip).filter
          (fun x => !x.isEmpty)
        let newOnes := ((ms.take limit).map (fun x => pyStrip (pyStr x))).filter
          (fun x => !x.isEmpty)
        let merged := dedupe_keep_order (existingList ++ newOnes)
        dSet cv "modern_keywords_extra" (.vStr (joinNl (merged.take 80)))
    | _ => cv
  | _ => cv

/-- Shape of the `Analysis` records constructed by `analyze_jd` (spec §3):
string `hash` and `lang`, string-list `keywords`, `present` and `missing`,
rational `coverage`. -/
def isWellFormedAnalysis : Val → Bool
| .vDict d =>
  (match dGet d "hash" with | some (.vStr _) => true | _ => false) &&
  (match dGet d "lang" with | some (.vStr _) => true | _ => false) &&
  (match dGet d "keywords" with
   | some (.vList ks) => ks.all (fun v => match v with | .vStr _ => true | _ => false)
   | _ => false) &&
  (match dGet d "present" with
   | some (.vList ks) => ks.all (fun v => match v with | .vStr _ => true | _ => false)
   | _ => false) &&
  (match dGet d "missing" with
   | some (.vList ks) => ks.all (fun v => match v with | .vStr _ => true | _ => false)
   | _ => false) &&
  (match dGet d "coverage" with | some (.vRat _) => true | _ => false)
| _ => false

/-- Entries of a newline-separated keyword field value, read the way
`apply_missing_to_extra_keywords` reads them. -/
def entriesOfStr (s : String) : List String :=
  ((pySplitlines (pyStrip s)).map pyStrip).filter (fun x => !x.isEmpty)

/-- Entries of the `modern_keywords_extra` newline list of a CV, read the way
`apply_missing_to_extra_keywords` reads them. -/
def extraKeywordEntries (cv : Cv) : List String :=
  entriesOfStr (asStr (orEmpty (dGetD cv "modern_keywords_extra" (.vStr ""))))

/-- Field access on an analysis value (`analysis.get(k)` on a dict, `none`
otherwise). -/
def aGet : Val → String → Option Val
| .vDict d, k => dGet d k
| _, _ => none

/-- The `missing` list of an analysis value, read the way
`apply_missing_to_extra_keywords` reads it (`analysis.get("missing", [])`,
kept only when it is a list). -/
def analysisMissing (a : Val) : Option (List Val) :=
  match a with
  | .vDict d =>
    match dGetD d "missing" (.vList []) with
    | .vList ms => some ms
    | _ => none
  | _ => none

/-- True when the `missing` read yields no nonempty list, i.e. exactly the
condition under which `apply_missing_to_extra_keywords` leaves the CV
unwritten. -/
def analysisMissingEmpty (a : Val) : Bool :=
  match analysisMissing a with
  | some ms => ms.isEmpty
  | none => true

/-- A CV already carrying the scaffolding that `ensure_jd_state` installs:
the two JD text keys and a `jd_state` dict with its four keys. -/
def jdScaffolded (cv : Cv) : Bool :=
  dHas cv "job_description" && dHas cv "jd_text" &&
  (match dGet cv "jd_state" with
   | some (.vDict js) =>
     dHas js "active_job_id" && dHas js "jobs" &&
     dHas js "current_role_hint" && dHas js "last_jd_hash"
   | _ => false)

/-- A string free of the characters at which `splitlines` breaks. -/
def noLineBreaks (s : String) : Prop := ∀ c ∈ s.data, isLineBreak c = false

/-! Concrete records used by the claim theorems. -/

/-- A CV holding the JD `"python developer"` and no matching content. -/
def c1Cv0 : Cv := [("job_description", .vStr "python developer")]

/-- The same CV after a first analysis. -/
def c1Cv1 : Cv := (analyze_jd c1Cv0 "" none 80).1

/-- The analyzed CV after the user adds the previously-missing keyword
`"python"` to a skills field scanned by `_cv_to_text`. -/
def c1Cv2 : Cv := dSet c1Cv1 "modern_skills_headline" (.vStr "python")

/-- A CV whose cache holds a corrupt (empty, field-less) entry under the
active job id. -/
def c5Cv : Cv :=
  [("job_description", .vStr "python developer"),
   ("jd_state", .vDict
     [("active_job_id", .vStr "h1"),
      ("jobs", .vDict [("h1", .vDict [])])])]

/-- A CV whose cached active analysis has a missing entry containing a
newline. -/
def c7Cv : Cv :=
  [("jd_state", .vDict
    [("active_job_id", .vStr "h1"),
     ("jobs", .vDict [("h1", .vDict [("missing", .vList [.vStr "x\ny"])])])])]

/-- A scaffolded CV with a cached active analysis, used to witness the apply
idempotence theorem. -/
def c7wCv : Cv :=
  [("job_description", .vStr ""), ("jd_text", .vStr ""),
   ("jd_state", .vDict
     [("active_job_id", .vStr "h1"),
      ("jobs", .vDict [("h1", .vDict
        [("missing", .vList [.vStr "aws", .vStr "terraform"])])]),
      ("current_role_hint", .vStr ""), ("last_jd_hash", .vStr "")]),
   ("modern_keywords_extra", .vStr "python")]

/-- A CV whose extra-keywords field already holds 81 distinct entries. -/
def c10Cv : Cv :=
  [("modern_keywords_extra",
    .vStr (joinNl ((List.range 81).map (fun i => "k" ++ toString i))))]

/-- A scaffolded CV with 80 distinct extra-keyword entries and a cached
analysis offering one further keyword. -/
def c10wCv : Cv :=
  [("job_description", .vStr ""), ("jd_text", .vStr ""),
   ("jd_state", .vDict
     [("active_job_id", .vStr "h1"),
      ("jobs", .vDict [("h1", .vDict [("missing", .vList [.vStr "newkw"])])]),
      ("current_role_hint", .vStr ""), ("last_jd_hash", .vStr "")]),
   ("modern_keywords_extra",
    .vStr (joinNl ((List.range 80).map (fun i => "k" ++ toString i))))]


/-! Dictionary lemmas. -/

theorem dGet_mapSet (d : List (String × Val)) (k : String) (v : Val)
    (h : dHas d k = true) :
    dGet (d.map (fun p => if p.1 = k then (k, v) else p)) k = some v := by
  induction d with
  | nil => simp [dHas] at h
  | cons p rest ih =>
    obtain ⟨k1, v1⟩ := p
    by_cases hp : k1 = k
    · subst hp
      rw [List.map_cons, if_pos rfl, dGet, if_pos rfl]
    · rw [List.map_cons, if_neg hp, dGet, if_neg hp]
      apply ih
      simpa [dHas, hp] using h

theorem dGet_mapSet_ne (d : List (String × Val)) (k : String) (v : Val)
    (k2 : String) (h : k2 ≠ k) :
    dGet (d.map (fun p => if p.1 = k then (k, v) else p)) k2 = dGet d k2 := by
  induction d with
  | nil => simp
  | cons p rest ih =>
    obtain ⟨k1, v1⟩ := p
    by_cases hp : k1 = k
    · subst hp
      rw [List.map_cons, if_pos rfl, dGet, if_neg (Ne.symm h), dGet,
        if_neg (Ne.symm h), ih]
    · rw [List.map_cons, if_neg hp, dGet, dGet, ih]

theorem dGet_append_one_self (d : List (String × Val)) (k : String) (v : Val)
    (h : dHas d k = false) : dGet (d ++ [(k, v)]) k = some v := by
  induction d with
  | nil => simp [dGet]
  | cons p rest ih =>
    obtain ⟨k1, v1⟩ := p
    simp only [dHas, Bool.or_eq_false_iff, decide_eq_false_iff_not] at h
    rw [List.cons_append, dGet, if_neg h.1, ih h.2]

theorem dGet_append_one_ne (d : List (String × Val)) (k : String) (v : Val)
    (k2 : String) (h : k2 ≠ k) : dGet (d ++ [(k, v)]) k2 = dGet d k2 := by
  induction d with
  | nil => simp [dGet, Ne.symm h]
  | cons p rest ih =>
    obtain ⟨k1, v1⟩ := p
    by_cases hp : k1 = k2
    · rw [List.cons_append, dGet, if_pos hp, dGet, if_pos hp]
    · rw [List.cons_append, dGet, if_neg hp, dGet, if_neg hp, ih]

theorem dHas_isSome (d : List (String × Val)) (k : String) :
    dHas d k = (dGet d k).isSome := by
  induction d with
  | nil => simp [dHas, dGet]
  | cons p rest ih =>
    obtain ⟨k1, v1⟩ := p
    by_cases hp : k1 = k <;> simp [dHas, dGet, hp, ih]

theorem dGet_dSet (d : List (String × Val)) (k : String) (v : Val) (k2 : String) :
    dGet (dSet d k v) k2 = if k2 = k then some v else dGet d k2 := by
  unfold dSet
  by_cases h : dHas d k
  · by_cases hk : k2 = k
    · subst hk
      simp [h, dGet_mapSet d k2 v h]
    · simp [h, hk, dGet_mapSet_ne d k v k2 hk]
  · by_cases hk : k2 = k
    · subst hk
      simp only [Bool.not_eq_true] at h
      simp [h, dGet_append_one_self d k2 v h]
    · simp [h, hk, dGet_append_one_ne d k v k2 hk]

theorem dGet_dSetD (d : List (String × Val)) (k : String) (v : Val) (k2 : String) :
    dGet (dSetD d k v) k2 = if k2 = k then some (dGetD d k v) else dGet d k2 := by
  unfold dSetD
  by_cases h : dHas d k
  · by_cases hk : k2 = k
    · subst hk
      have hs : (dGet d k2).isSome := by rw [← dHas_isSome]; exact h
      cases hg : dGet d k2 with
      | none => rw [hg] at hs; simp at hs
      | some w => simp [h, hg, dGetD]
    · simp [h, hk]
  · by_cases hk : k2 = k
    · subst hk
      simp only [Bool.not_eq_true] at h
      have hg : dGet d k2 = none := by
        have := dHas_isSome d k2
        rw [h] at this
        cases hgg : dGet d k2 with
        | none => rfl
        | some w => rw [hgg] at this; simp at this
      simp [h, dGet_append_one_self d k2 v h, dGetD, hg]
    · simp [h, dGet_append_one_ne d k v k2 hk, hk]

/-! Frame lemmas: the state functions write only their designated keys. -/

theorem dGet_ensureCopyJd_ne (cv : Cv) (k : String)
    (h1 : k ≠ "job_description") : dGet (ensureCopyJd cv) k = dGet cv k := by
  unfold ensureCopyJd
  split
  · rw [dGet_dSet, if_neg h1]
  · rfl

theorem dGet_ensureStateDict_ne (cv : Cv) (k : String)
    (h3 : k ≠ "jd_state") : dGet (ensureStateDict cv) k = dGet cv k := by
  unfold ensureStateDict
  split
  · rfl
  · rw [dGet_dSet, if_neg h3]

theorem dGet_ensure_frame (cv : Cv) (k : String)
    (h1 : k ≠ "job_description") (h2 : k ≠ "jd_text") (h3 : k ≠ "jd_state") :
    dGet (ensure_jd_state cv) k = dGet cv k := by
  simp only [ensure_jd_state, setJdState]
  rw [dGet_dSet, if_neg h3, dGet_ensureStateDict_ne _ _ h3, dGet_dSetD,
    if_neg h3, dGet_dSetD, if_neg h2, dGet_dSetD, if_neg h1,
    dGet_ensureCopyJd_ne _ _ h1]

theorem gcj_fst (cv : Cv) : (get_current_jd cv).1 = ensure_jd_state cv := by
  simp only [get_current_jd]
  split <;> rfl

theorem dGet_analyzeRoleHint_ne (cv : Cv) (rh : String) (k : String)
    (h3 : k ≠ "jd_state") : dGet (analyzeRoleHint cv rh) k = dGet cv k := by
  unfold analyzeRoleHint setJdState
  split
  · rw [dGet_dSet, if_neg h3]
  · rfl

theorem dGet_analyzeSetActiveEmpty_ne (cv : Cv) (k : String)
    (h3 : k ≠ "jd_state") : dGet (analyzeSetActiveEmpty cv) k = dGet cv k := by
  unfold analyzeSetActiveEmpty setJdState
  rw [dGet_dSet, if_neg h3]

theorem dGet_analyzePersist_ne (cv : Cv) (jid : String) (analysis : Val)
    (k : String) (h3 : k ≠ "jd_state") (h4 : k ≠ "ats_analysis") :
    dGet (analyzePersist cv jid analysis) k = dGet cv k := by
  simp only [analyzePersist, setJdState]
  rw [dGet_dSet, if_neg h4, dGet_dSet, if_neg h3]

theorem dGet_analyzeState_ne (cv : Cv) (jd jid : String) (analysis : Val)
    (k : String) (h3 : k ≠ "jd_state") (h4 : k ≠ "ats_analysis") :
    dGet (analyzeState cv jd jid analysis) k = dGet cv k := by
  unfold analyzeState
  split
  · exact dGet_analyzeSetActiveEmpty_ne _ _ h3
  · exact dGet_analyzePersist_ne _ _ _ _ h3 h4

theorem dGet_analyze_frame (cv : Cv) (rh : String) (prof : Option Val)
    (n : Nat) (k : String)
    (h1 : k ≠ "job_description") (h2 : k ≠ "jd_text") (h3 : k ≠ "jd_state")
    (h4 : k ≠ "ats_analysis") :
    dGet ((analyze_jd cv rh prof n).1) k = dGet cv k := by
  simp only [analyze_jd]
  rw [dGet_analyzeState_ne _ _ _ _ _ h3 h4, dGet_analyzeRoleHint_ne _ _ _ h3,
    gcj_fst, dGet_ensure_frame _ _ h1 h2 h3, dGet_ensure_frame _ _ h1 h2 h3]

theorem dGet_gca_frame (cv : Cv) (k : String)
    (h1 : k ≠ "job_description") (h2 : k ≠ "jd_text") (h3 : k ≠ "jd_state")
    (h4 : k ≠ "ats_analysis") :
    dGet ((get_current_analysis cv).1) k = dGet cv k := by
  simp only [get_current_analysis]
  split
  · split
    · split
      · exact dGet_ensure_frame _ _ h1 h2 h3
      · rw [dGet_analyze_frame _ _ _ _ _ h1 h2 h3 h4,
          dGet_ensure_frame _ _ h1 h2 h3]
    · rw [dGet_analyze_frame _ _ _ _ _ h1 h2 h3 h4,
        dGet_ensure_frame _ _ h1 h2 h3]
  · rw [dGet_analyze_frame _ _ _ _ _ h1 h2 h3 h4,
      dGet_ensure_frame _ _ h1 h2 h3]

theorem dGet_apply_frame (cv : Cv) (limit : Nat) (k : String)
    (h1 : k ≠ "job_description") (h2 : k ≠ "jd_text") (h3 : k ≠ "jd_state")
    (h4 : k ≠ "ats_analysis") (h5 : k ≠ "modern_keywords_extra") :
    dGet (apply_missing_to_extra_keywords cv limit) k = dGet cv k := by
  simp only [apply_missing_to_extra_keywords]
  split
  · split
    · split
      · exact dGet_gca_frame _ _ h1 h2 h3 h4
      · rw [dGet_dSet, if_neg h5]
        exact dGet_gca_frame _ _ h1 h2 h3 h4
    · exact dGet_gca_frame _ _ h1 h2 h3 h4
  · exact dGet_gca_frame _ _ h1 h2 h3 h4

/-! String lemmas: `strip` idempotence and ends, newline join/split
round trips. -/

theorem dropWhile_idem {α : Type} (p : α → Bool) (l : List α) :
    (l.dropWhile p).dropWhile p = l.dropWhile p := by
  induction l with
  | nil => rfl
  | cons a t ih =>
    by_cases h : p a
    · rw [List.dropWhile_cons, if_pos h, ih]
    · rw [List.dropWhile_cons, if_neg h, List.dropWhile_cons, if_neg h]

theorem dropWhile_head_false {α : Type} (p : α → Bool) (l : List α) (c : α)
    (h : (l.dropWhile p).head? = some c) : p c = false := by
  induction l with
  | nil => simp at h
  | cons a t ih =>
    by_cases hp : p a
    · rw [List.dropWhile_cons, if_pos hp] at h
      exact ih h
    · rw [List.dropWhile_cons, if_neg hp] at h
      simp only [List.head?_cons, Option.some.injEq] at h
      subst h
      simpa using hp

theorem stripChars_idem (l : List Char) :
    stripChars (stripChars l) = stripChars l := by
  unfold stripChars
  set p := isPySpace with hp
  set u := l.dropWhile p with hu
  set v := ((u.reverse.dropWhile p)).reverse with hv
  have hvr : v.reverse = u.reverse.dropWhile p := by rw [hv, List.reverse_reverse]
  have hpre : v <+: u := by
    rw [← List.reverse_suffix, hvr]
    exact List.dropWhile_suffix p
  have hstep1 : v.dropWhile p = v := by
    cases hvv : v with
    | nil => rfl
    | cons c cs =>
      obtain ⟨t, ht⟩ := hpre
      have hhu : u.head? = some c := by
        rw [← ht, hvv]
        rfl
      have hc : p c = false := by
        apply dropWhile_head_false p l c
        rw [← hu]
        exact hhu
      rw [List.dropWhile_cons, if_neg (by simp [hc])]
  have hstep2 : v.reverse.dropWhile p = v.reverse := by
    rw [hvr, dropWhile_idem]
  rw [hstep1, hstep2, List.reverse_reverse]

theorem pyStrip_idem (s : String) : pyStrip (pyStrip s) = pyStrip s := by
  unfold pyStrip
  rw [show (String.mk (stripChars s.data)).data = stripChars s.data from rfl,
    stripChars_idem]

theorem stripChars_sublist (l : List Char) : (stripChars l).Sublist l := by
  unfold stripChars
  have h1 : (l.dropWhile isPySpace).Sublist l :=
    (List.dropWhile_suffix isPySpace).sublist
  have h2 : (((l.dropWhile isPySpace).reverse.dropWhile
      isPySpace)).reverse.Sublist (l.dropWhile isPySpace) := by
    rw [← List.reverse_sublist, List.reverse_reverse]
    exact (List.dropWhile_suffix isPySpace).sublist
  exact h2.trans h1

theorem pyStrip_mem (s : String) (c : Char) (h : c ∈ (pyStrip s).data) :
    c ∈ s.data := by
  have : (pyStrip s).data = stripChars s.data := rfl
  rw [this] at h
  exact (stripChars_sublist s.data).subset h

theorem stripChars_of_ends (l : List Char)
    (h1 : ∀ c, l.head? = some c → isPySpace c = false)
    (h2 : ∀ c, l.getLast? = some c → isPySpace c = false) :
    stripChars l = l := by
  unfold stripChars
  have hd : l.dropWhile isPySpace = l := by
    cases l with
    | nil => rfl
    | cons a t =>
      rw [List.dropWhile_cons, if_neg (by simp [h1 a rfl])]
  rw [hd]
  have hr : l.reverse.dropWhile isPySpace = l.reverse := by
    cases hrev : l.reverse with
    | nil => rfl
    | cons a t =>
      have hla : l.getLast? = some a := by
        rw [← List.head?_reverse, hrev]
        rfl
      rw [List.dropWhile_cons, if_neg (by simp [h2 a hla])]
  rw [hr, List.reverse_reverse]

theorem stripped_head (l : List Char) (h : stripChars l = l) (c : Char)
    (hc : l.head? = some c) : isPySpace c = false := by
  have hlen : (l.dropWhile isPySpace).length = l.length := by
    have h1 : ((l.dropWhile isPySpace).reverse.dropWhile isPySpace).length ≤
        (l.dropWhile isPySpace).length := by
      calc ((l.dropWhile isPySpace).reverse.dropWhile isPySpace).length
          ≤ (l.dropWhile isPySpace).reverse.length :=
            ((List.dropWhile_suffix isPySpace).sublist).length_le
        _ = (l.dropWhile isPySpace).length := List.length_reverse _
    have h2 : (l.dropWhile isPySpace).length ≤ l.length :=
      ((List.dropWhile_suffix isPySpace).sublist).length_le
    have h3 : (stripChars l).length = l.length := by rw [h]
    unfold stripChars at h3
    rw [List.length_reverse] at h3
    omega
  have heq : l.dropWhile isPySpace = l :=
    ((List.dropWhile_suffix isPySpace).sublist).eq_of_length hlen
  cases l with
  | nil => simp at hc
  | cons a t =>
    simp only [List.head?_cons, Option.some.injEq] at hc
    subst hc
    by_contra hh
    simp only [Bool.not_eq_false] at hh
    rw [List.dropWhile_cons, if_pos (by simp [hh])] at heq
    have := congrArg List.length heq
    have hle : (t.dropWhile isPySpace).length ≤ t.length :=
      ((List.dropWhile_suffix isPySpace).sublist).length_le
    simp only [List.length_cons] at this
    omega

theorem stripped_last (l : List Char) (h : stripChars l = l) (c : Char)
    (hc : l.getLast? = some c) : isPySpace c = false := by
  have hd : l.dropWhile isPySpace = l := by
    have hlen : (l.dropWhile isPySpace).length = l.length := by
      have h1 : ((l.dropWhile isPySpace).reverse.dropWhile isPySpace).length ≤
          (l.dropWhile isPySpace).length := by
        calc ((l.dropWhile isPySpace).reverse.dropWhile isPySpace).length
            ≤ (l.dropWhile isPySpace).reverse.length :=
              ((List.dropWhile_suffix isPySpace).sublist).length_le
          _ = (l.dropWhile isPySpace).length := List.length_reverse _
      have h2 : (l.dropWhile isPySpace).length ≤ l.length :=
        ((List.dropWhile_suffix isPySpace).sublist).length_le
      have h3 : (stripChars l).length = l.length := by rw [h]
      unfold stripChars at h3
      rw [List.length_reverse] at h3
      omega
    exact ((List.dropWhile_suffix isPySpace).sublist).eq_of_length hlen
  have hrev : l.reverse.dropWhile isPySpace = l.reverse := by
    unfold stripChars at h
    rw [hd] at h
    have := congrArg List.reverse h
    rw [List.reverse_reverse] at this
    exact this
  apply dropWhile_head_false isPySpace l.reverse c
  rw [hrev, List.head?_reverse]
  exact hc

theorem pyStrip_fix_iff (s : String) :
    pyStrip s = s ↔ stripChars s.data = s.data := by
  constructor
  · intro h
    have := congrArg String.data h
    exact this
  · intro h
    unfold pyStrip
    rw [h]

theorem joinNl_head_mem (xs : List String) (h : ∀ x ∈ xs, x ≠ "") (c : Char)
    (hc : (joinNl xs).data.head? = some c) : ∃ x ∈ xs, x.data.head? = some c := by
  cases xs with
  | nil => simp [joinNl] at hc
  | cons x rest =>
    cases rest with
    | nil =>
      exact ⟨x, by simp, hc⟩
    | cons y ys =>
      refine ⟨x, by simp, ?_⟩
      have hx : x.data ≠ [] := by
        intro he
        apply h x (by simp)
        cases x
        simp_all
      rw [show (joinNl (x :: y :: ys)) = x ++ "\n" ++ joinNl (y :: ys) from rfl] at hc
      rw [String.data_append, String.data_append] at hc
      rw [List.append_assoc] at hc
      cases hxd : x.data with
      | nil => exact absurd hxd hx
      | cons a t =>
        rw [hxd] at hc
        simpa using hc

theorem joinNl_last_mem (xs : List String) (h : ∀ x ∈ xs, x ≠ "") (c : Char)
    (hc : (joinNl xs).data.getLast? = some c) :
    ∃ x ∈ xs, x.data.getLast? = some c := by
  induction xs with
  | nil => simp [joinNl] at hc
  | cons x rest ih =>
    cases rest with
    | nil =>
      exact ⟨x, by simp, hc⟩
    | cons y ys =>
      have hy : (joinNl (y :: ys)).data ≠ [] := by
        intro he
        have hyne : y.data ≠ [] := by
          intro hee
          apply h y (by simp)
          cases y
          simp_all
        cases ys with
        | nil => exact hyne (by simpa [joinNl] using he)
        | cons z zs =>
          rw [show joinNl (y :: z :: zs) = y ++ "\n" ++ joinNl (z :: zs) from rfl,
            String.data_append, String.data_append] at he
          simp only [List.append_assoc, List.append_eq_nil] at he
          exact hyne he.1
      rw [show (joinNl (x :: y :: ys)) = x ++ "\n" ++ joinNl (y :: ys) from rfl,
        String.data_append] at hc
      rw [List.getLast?_append_of_ne_nil _ hy] at hc
      obtain ⟨z, hz, hzc⟩ := ih (fun a ha => h a (by simp [ha])) hc
      exact ⟨z, by simp [hz], hzc⟩

theorem splitlinesGo_cons_nolb (fuel : Nat) (c : Char) (rest acc : List Char)
    (hc : isLineBreak c = false) :
    splitlinesGo (fuel + 1) (c :: rest) acc = splitlinesGo fuel rest (c :: acc) := by
  rw [splitlinesGo, if_neg (by simp [hc])]

theorem splitlinesGo_append (chars : List Char) (rest acc : List Char) (f : Nat)
    (h : ∀ c ∈ chars, isLineBreak c = false) :
    splitlinesGo (chars.length + f) (chars ++ rest) acc =
      splitlinesGo f rest (chars.reverse ++ acc) := by
  induction chars generalizing acc with
  | nil => simp
  | cons c cs ih =>
    have hc : isLineBreak c = false := h c (by simp)
    have harr : (c :: cs).length + f = (cs.length + f) + 1 := by
      simp only [List.length_cons]
      omega
    rw [harr, List.cons_append, splitlinesGo_cons_nolb _ _ _ _ hc,
      ih (c :: acc) (fun a ha => h a (by simp [ha]))]
    simp

theorem splitlinesGo_noLB (fuel : Nat) (l acc : List Char)
    (hacc : ∀ c ∈ acc, isLineBreak c = false) :
    ∀ line ∈ splitlinesGo fuel l acc, ∀ c ∈ line, isLineBreak c = false := by
  induction fuel generalizing l acc with
  | zero =>
    cases l with
    | nil =>
      intro line hline c hc
      rw [splitlinesGo] at hline
      split at hline
      · simp at hline
      · simp only [List.mem_singleton] at hline
        subst hline
        exact hacc c (by simpa using hc)
    | cons a t =>
      intro line hline
      rw [splitlinesGo] at hline
      simp at hline
  | succ f ih =>
    cases l with
    | nil =>
      intro line hline c hc
      rw [splitlinesGo] at hline
      split at hline
      · simp at hline
      · simp only [List.mem_singleton] at hline
        subst hline
        exact hacc c (by simpa using hc)
    | cons a t =>
      intro line hline
      by_cases hlb : isLineBreak a = true
      · rw [splitlinesGo, if_pos (by simp [hlb])] at hline
        simp only [List.mem_cons] at hline
        rcases hline with hline | hline
        · subst hline
          intro c hc
          exact hacc c (by simpa using hc)
        · exact ih _ [] (by simp) line hline
      · simp only [Bool.not_eq_true] at hlb
        rw [splitlinesGo_cons_nolb _ _ _ _ hlb] at hline
        refine ih t (a :: acc) ?_ line hline
        intro c hc
        simp only [List.mem_cons] at hc
        rcases hc with hc | hc
        · subst hc
          exact hlb
        · exact hacc c hc

theorem pySplitlines_noLB (s : String) :
    ∀ x ∈ pySplitlines s, noLineBreaks x := by
  intro x hx c hc
  unfold pySplitlines at hx
  simp only [List.mem_map] at hx
  obtain ⟨line, hline, hlx⟩ := hx
  subst hlx
  exact splitlinesGo_noLB _ _ [] (by simp) line hline c hc

theorem splitlinesGo_joinNl (xs : List String)
    (h : ∀ x ∈ xs, x ≠ "" ∧ noLineBreaks x) :
    splitlinesGo (joinNl xs).data.length (joinNl xs).data [] =
      xs.map String.data := by
  induction xs with
  | nil => rfl
  | cons x rest ih =>
    have hx : x.data ≠ [] := by
      intro he
      apply (h x (by simp)).1
      cases x
      simp_all
    have hlbx : ∀ c ∈ x.data, isLineBreak c = false := (h x (by simp)).2
    cases rest with
    | nil =>
      show splitlinesGo x.data.length x.data [] = [x.data]
      have h0 : splitlinesGo x.data.length x.data [] =
          splitlinesGo 0 [] x.data.reverse := by
        have := splitlinesGo_append x.data [] [] 0 hlbx
        simpa using this
      rw [h0, splitlinesGo, if_neg (by simpa using hx)]
      simp
    | cons y ys =>
      have hj : (joinNl (x :: y :: ys)).data =
          x.data ++ ('\n' :: (joinNl (y :: ys)).data) := by
        rw [show joinNl (x :: y :: ys) = x ++ "\n" ++ joinNl (y :: ys) from rfl,
          String.data_append, String.data_append]
        simp
      rw [hj]
      have hlen : (x.data ++ ('\n' :: (joinNl (y :: ys)).data)).length =
          x.data.length + ((joinNl (y :: ys)).data.length + 1) := by
        simp [List.length_append]
      rw [hlen, splitlinesGo_append x.data _ [] _ hlbx]
      rw [splitlinesGo, if_pos (by simp [isLineBreak])]
      rw [if_neg (by decide)]
      rw [ih (fun a ha => h a (by simp [ha]))]
      simp

theorem pySplitlines_joinNl (xs : List String)
    (h : ∀ x ∈ xs, x ≠ "" ∧ noLineBreaks x) :
    pySplitlines (joinNl xs) = xs := by
  unfold pySplitlines
  rw [splitlinesGo_joinNl xs h]
  rw [List.map_map]
  have : (String.mk ∘ String.data) = id := by
    funext s
    cases s
    rfl
  rw [this, List.map_id]

theorem pyStrip_joinNl (xs : List String)
    (h : ∀ x ∈ xs, pyStrip x = x ∧ x ≠ "") :
    pyStrip (joinNl xs) = joinNl xs := by
  rw [pyStrip_fix_iff]
  apply stripChars_of_ends
  · intro c hc
    obtain ⟨x, hx, hxc⟩ := joinNl_head_mem xs (fun a ha => (h a ha).2) c hc
    apply stripped_head x.data ((pyStrip_fix_iff x).mp (h x hx).1) c hxc
  · intro c hc
    obtain ⟨x, hx, hxc⟩ := joinNl_last_mem xs (fun a ha => (h a ha).2) c hc
    apply stripped_last x.data ((pyStrip_fix_iff x).mp (h x hx).1) c hxc

/-! Dedupe lemmas: shape of `_dedupe_keep_order` outputs, decomposition over
append, fixpoints, and idempotence of the merge-then-truncate step. -/

theorem dedupeGo_props (l : List String) (seen : List String) :
    ∀ x ∈ dedupeGo seen l, (∃ it ∈ l, x = pyStrip it) ∧ x ≠ "" := by
  induction l generalizing seen with
  | nil => simp [dedupeGo]
  | cons it rest ih =>
    intro x hx
    rw [dedupeGo] at hx
    by_cases hs : (pyStrip it).isEmpty
    · rw [if_pos hs] at hx
      obtain ⟨⟨it2, hit2, hx2⟩, hne⟩ := ih seen x hx
      exact ⟨⟨it2, by simp [hit2], hx2⟩, hne⟩
    · rw [if_neg hs] at hx
      by_cases hk : seen.contains (pyLower (pyStrip it))
      · rw [if_pos hk] at hx
        obtain ⟨⟨it2, hit2, hx2⟩, hne⟩ := ih seen x hx
        exact ⟨⟨it2, by simp [hit2], hx2⟩, hne⟩
      · rw [if_neg hk] at hx
        rcases List.mem_cons.mp hx with hx | hx
        · subst hx
          refine ⟨⟨it, by simp, rfl⟩, ?_⟩
          intro he
          rw [he] at hs
          exact absurd hs (by decide)
        · obtain ⟨⟨it2, hit2, hx2⟩, hne⟩ := ih _ x hx
          exact ⟨⟨it2, by simp [hit2], hx2⟩, hne⟩

theorem dedupeGo_stripped (l : List String) (seen : List String) :
    ∀ x ∈ dedupeGo seen l, pyStrip x = x ∧ x ≠ "" := by
  intro x hx
  obtain ⟨⟨it, _, hx2⟩, hne⟩ := dedupeGo_props l seen x hx
  subst hx2
  exact ⟨pyStrip_idem it, hne⟩

theorem dedupeGo_sublist (l : List String) (seen : List String) :
    (dedupeGo seen l).Sublist (l.map pyStrip) := by
  induction l generalizing seen with
  | nil => simp [dedupeGo]
  | cons it rest ih =>
    rw [dedupeGo, List.map_cons]
    by_cases hs : (pyStrip it).isEmpty
    · rw [if_pos hs]
      exact (ih seen).cons _
    · rw [if_neg hs]
      by_cases hk : seen.contains (pyLower (pyStrip it))
      · rw [if_pos hk]
        exact (ih seen).cons _
      · rw [if_neg hk]
        exact (ih _).cons₂ _

theorem dedupeGo_lower_nodup (l : List String) (seen : List String) :
    ((dedupeGo seen l).map pyLower).Nodup ∧
      ∀ x ∈ dedupeGo seen l, pyLower x ∉ seen := by
  induction l generalizing seen with
  | nil => simp [dedupeGo]
  | cons it rest ih =>
    rw [dedupeGo]
    by_cases hs : (pyStrip it).isEmpty
    · rw [if_pos hs]
      exact ih seen
    · rw [if_neg hs]
      by_cases hk : seen.contains (pyLower (pyStrip it))
      · rw [if_pos hk]
        exact ih seen
      · rw [if_neg hk]
        obtain ⟨ihn, ihs⟩ := ih (pyLower (pyStrip it) :: seen)
        constructor
        · rw [List.map_cons, List.nodup_cons]
          refine ⟨?_, ihn⟩
          intro hmem
          obtain ⟨y, hy, hyl⟩ := List.mem_map.mp hmem
          exact ihs y hy (by rw [hyl]; simp)
        · intro x hx
          rcases List.mem_cons.mp hx with hx | hx
          · subst hx
            intro hmem
            apply hk
            rw [List.elem_iff]
            exact hmem
          · intro hmem
            exact ihs x hx (by simp [hmem])

theorem dedupeGo_append (a b : List String) (seen : List String) :
    dedupeGo seen (a ++ b) = dedupeGo seen a ++ dedupeGo (seenAfter seen a) b := by
  induction a generalizing seen with
  | nil => simp [dedupeGo, seenAfter]
  | cons it rest ih =>
    rw [List.cons_append, dedupeGo, dedupeGo, seenAfter]
    by_cases hs : (pyStrip it).isEmpty
    · rw [if_pos hs, if_pos hs, if_pos hs, ih]
    · rw [if_neg hs, if_neg hs, if_neg hs]
      by_cases hk : seen.contains (pyLower (pyStrip it))
      · rw [if_pos hk, if_pos hk, if_pos hk, ih]
      · rw [if_neg hk, if_neg hk, if_neg hk, List.cons_append, ih]

theorem dedupeGo_fixpoint (l : List String) (seen : List String)
    (h1 : ∀ x ∈ l, pyStrip x = x ∧ x ≠ "")
    (h2 : (l.map pyLower).Nodup)
    (h3 : ∀ x ∈ l, pyLower x ∉ seen) :
    dedupeGo seen l = l := by
  induction l generalizing seen with
  | nil => rfl
  | cons it rest ih =>
    rw [dedupeGo]
    obtain ⟨hit1, hit2⟩ := h1 it (by simp)
    rw [hit1]
    rw [if_neg (by simpa [String.isEmpty_iff] using hit2)]
    have hk : ¬seen.contains (pyLower it) := by
      intro hc
      exact h3 it (by simp) (List.elem_iff.mp hc)
    rw [if_neg hk]
    congr 1
    apply ih
    · intro x hx
      exact h1 x (by simp [hx])
    · rw [List.map_cons, List.nodup_cons] at h2
      exact h2.2
    · intro x hx
      intro hmem
      rcases List.mem_cons.mp hmem with hm | hm
      · rw [List.map_cons, List.nodup_cons] at h2
        exact h2.1 (by rw [← hm]; exact List.mem_map_of_mem pyLower hx)
      · exact h3 x (by simp [hx]) hm

theorem seenAfter_mono (l : List String) (seen : List String) (k : String)
    (h : k ∈ seen) : k ∈ seenAfter seen l := by
  induction l generalizing seen with
  | nil => simpa [seenAfter]
  | cons it rest ih =>
    rw [seenAfter]
    by_cases hs : (pyStrip it).isEmpty
    · rw [if_pos hs]
      exact ih seen h
    · rw [if_neg hs]
      by_cases hk : seen.contains (pyLower (pyStrip it))
      · rw [if_pos hk]
        exact ih seen h
      · rw [if_neg hk]
        exact ih _ (by simp [h])

theorem key_in_seenAfter (l : List String) (seen : List String) (x : String)
    (hx : x ∈ l) (hs : pyStrip x ≠ "") :
    pyLower (pyStrip x) ∈ seenAfter seen l := by
  induction l generalizing seen with
  | nil => simp at hx
  | cons it rest ih =>
    simp only [seenAfter]
    rcases List.mem_cons.mp hx with hx | hx
    · subst hx
      rw [if_neg (by simpa [String.isEmpty_iff] using hs)]
      by_cases hk : seen.contains (pyLower (pyStrip x))
      · rw [if_pos hk]
        exact seenAfter_mono rest seen _ (List.elem_iff.mp hk)
      · rw [if_neg hk]
        exact seenAfter_mono rest _ _ (by simp)
    · by_cases hse : (pyStrip it).isEmpty
      · rw [if_pos hse]
        exact ih seen hx
      · rw [if_neg hse]
        by_cases hk : seen.contains (pyLower (pyStrip it))
        · rw [if_pos hk]
          exact ih seen hx
        · rw [if_neg hk]
          exact ih _ hx

theorem dedupeGo_nil_of_seen (l : List String) (seen : List String)
    (h : ∀ x ∈ l, pyStrip x = "" ∨ pyLower (pyStrip x) ∈ seen) :
    dedupeGo seen l = [] := by
  induction l generalizing seen with
  | nil => rfl
  | cons it rest ih =>
    rw [dedupeGo]
    rcases h it (by simp) with hit | hit
    · rw [if_pos (by simp [hit, String.isEmpty_iff])]
      exact ih seen (fun x hx => h x (by simp [hx]))
    · by_cases hs : (pyStrip it).isEmpty
      · rw [if_pos hs]
        exact ih seen (fun x hx => h x (by simp [hx]))
      · rw [if_neg hs, if_pos (List.elem_iff.mpr hit)]
        exact ih seen (fun x hx => h x (by simp [hx]))

theorem dedupeGo_covers (l : List String) (seen : List String) (x : String)
    (hx : x ∈ l) (hs : pyStrip x ≠ "") :
    pyLower (pyStrip x) ∈ seen ∨
      ∃ y ∈ dedupeGo seen l, pyLower y = pyLower (pyStrip x) := by
  induction l generalizing seen with
  | nil => simp at hx
  | cons it rest ih =>
    rw [dedupeGo]
    rcases List.mem_cons.mp hx with hx | hx
    · subst hx
      rw [if_neg (by simpa [String.isEmpty_iff] using hs)]
      by_cases hk : seen.contains (pyLower (pyStrip x))
      · exact Or.inl (List.elem_iff.mp hk)
      · rw [if_neg hk]
        exact Or.inr ⟨pyStrip x, by simp, rfl⟩
    · by_cases hse : (pyStrip it).isEmpty
      · rw [if_pos hse]
        exact ih seen hx
      · rw [if_neg hse]
        by_cases hk : seen.contains (pyLower (pyStrip it))
        · rw [if_pos hk]
          exact ih seen hx
        · rw [if_neg hk]
          rcases ih (pyLower (pyStrip it) :: seen) hx with hin | ⟨y, hy, hyl⟩
          · rcases List.mem_cons.mp hin with hin | hin
            · exact Or.inr ⟨pyStrip it, by simp, hin.symm⟩
            · exact Or.inl hin
          · exact Or.inr ⟨y, by simp [hy], hyl⟩

theorem noLineBreaks_pyStrip (x : String) (h : noLineBreaks x) :
    noLineBreaks (pyStrip x) := by
  intro c hc
  exact h c (pyStrip_mem x c hc)

theorem dedupeGo_noLB (l : List String) (seen : List String)
    (h : ∀ x ∈ l, noLineBreaks x) :
    ∀ x ∈ dedupeGo seen l, noLineBreaks x := by
  intro x hx
  obtain ⟨⟨it, hit, hx2⟩, _⟩ := dedupeGo_props l seen x hx
  subst hx2
  exact noLineBreaks_pyStrip it (h it hit)

theorem merge_idem (el sm : List String) :
    (dedupe_keep_order ((dedupe_keep_order (el ++ sm)).take 80 ++ sm)).take 80 =
      (dedupe_keep_order (el ++ sm)).take 80 := by
  unfold dedupe_keep_order
  set d := dedupeGo [] (el ++ sm) with hd
  have hdstrip : ∀ x ∈ d, pyStrip x = x ∧ x ≠ "" := dedupeGo_stripped _ _
  have hdnodup : (d.map pyLower).Nodup := (dedupeGo_lower_nodup (el ++ sm) []).1
  by_cases h80 : d.length ≤ 80
  · rw [List.take_of_length_le h80]
    rw [dedupeGo_append d sm []]
    rw [dedupeGo_fixpoint d [] hdstrip hdnodup (by simp)]
    have hnil : dedupeGo (seenAfter [] d) sm = [] := by
      apply dedupeGo_nil_of_seen
      intro x hx
      by_cases hxs : pyStrip x = ""
      · exact Or.inl hxs
      · right
        rcases dedupeGo_covers (el ++ sm) [] x (by simp [hx]) hxs with hin | ⟨y, hy, hyl⟩
        · simp at hin
        · rw [← hyl]
          have hys := (hdstrip y hy).1
          have hyne := (hdstrip y hy).2
          have : pyLower y = pyLower (pyStrip y) := by rw [hys]
          rw [this]
          apply key_in_seenAfter d [] y hy
          rw [hys]
          exact hyne
    rw [hnil, List.append_nil, List.take_of_length_le h80]
  · push_neg at h80
    have hlen : (d.take 80).length = 80 := by
      rw [List.length_take]
      omega
    rw [dedupeGo_append (d.take 80) sm []]
    have hfix : dedupeGo [] (d.take 80) = d.take 80 := by
      apply dedupeGo_fixpoint
      · intro x hx
        exact hdstrip x (List.mem_of_mem_take hx)
      · have : ((d.take 80).map pyLower).Sublist (d.map pyLower) :=
          (List.take_sublist 80 d).map pyLower
        exact hdnodup.sublist this
      · simp
    rw [hfix]
    rw [List.take_append_of_le_length (by omega)]
    rw [List.take_take]
    simp

theorem entries_props (s : String) :
    ∀ x ∈ ((pySplitlines s).map pyStrip).filter (fun x => !x.isEmpty),
      pyStrip x = x ∧ x ≠ "" ∧ noLineBreaks x := by
  intro x hx
  rw [List.mem_filter] at hx
  obtain ⟨hmem, hne⟩ := hx
  obtain ⟨line, hline, hlx⟩ := List.mem_map.mp hmem
  subst hlx
  refine ⟨pyStrip_idem line, ?_, ?_⟩
  · intro he
    rw [he] at hne
    exact absurd hne (by decide)
  · exact noLineBreaks_pyStrip line (pySplitlines_noLB s line hline)

/-! Presence-scorer lemmas and keyword-extractor facts. -/

theorem pyLower_eq_empty_iff (s : String) : pyLower s = "" ↔ s = "" := by
  cases s with
  | mk l =>
    unfold pyLower
    constructor
    · intro h
      have h2 : l.map pyLowerChar = [] := congrArg String.data h
      have h3 : l = [] := List.map_eq_nil_iff.mp h2
      rw [h3]
    · intro h
      have h2 : l = [] := congrArg String.data h
      rw [h2]
      rfl

theorem presenceSplit_eq_filter (t : String) (ks : List String) :
    presenceSplit t ks =
      (ks.filter (fun kw => !(pyLower (pyStrip kw)).isEmpty &&
         pyIn (pyLower (pyStrip kw)) t),
       ks.filter (fun kw => !(pyLower (pyStrip kw)).isEmpty &&
         !pyIn (pyLower (pyStrip kw)) t)) := by
  induction ks with
  | nil => rfl
  | cons kw rest ih =>
    rw [presenceSplit, ih]
    by_cases hk : (pyLower (pyStrip kw)).isEmpty
    · simp [hk, List.filter_cons]
    · by_cases hin : pyIn (pyLower (pyStrip kw)) t
      · simp [hk, hin, List.filter_cons]
      · simp [hk, hin, List.filter_cons]

theorem extract_stripped (text lang : String) (n : Nat) :
    ∀ kw ∈ extract_keywords text lang n, pyStrip kw = kw ∧ kw ≠ "" := by
  intro kw hkw
  unfold extract_keywords at hkw
  exact dedupeGo_stripped _ _ kw (List.mem_of_mem_take hkw)

/-- C3. Partition invariant: for every analysis produced by the pipeline
(every keyword list the extractor produces and every CV text given to the
scorer), the lowercased `present` and `missing` lists partition the lowercased
keyword list: their union is the keyword set and their intersection is empty. -/
theorem c3_partition_invariant (jd lang cvText : String) (n : Nat) :
    ((presence_score cvText (extract_keywords jd lang n)).1.map pyLower).toFinset ∪
      (((presence_score cvText (extract_keywords jd lang n)).2.1).map pyLower).toFinset =
      ((extract_keywords jd lang n).map pyLower).toFinset ∧
    ((presence_score cvText (extract_keywords jd lang n)).1.map pyLower).toFinset ∩
      (((presence_score cvText (extract_keywords jd lang n)).2.1).map pyLower).toFinset = ∅ := by
  have hks := extract_stripped jd lang n
  set ks := extract_keywords jd lang n with hksdef
  have hp1 : (presence_score cvText ks).1 =
      ks.filter (fun kw => !(pyLower (pyStrip kw)).isEmpty &&
        pyIn (pyLower (pyStrip kw)) (pyLower cvText)) := by
    simp only [presence_score, presenceSplit_eq_filter]
  have hp2 : (presence_score cvText ks).2.1 =
      ks.filter (fun kw => !(pyLower (pyStrip kw)).isEmpty &&
        !pyIn (pyLower (pyStrip kw)) (pyLower cvText)) := by
    simp only [presence_score, presenceSplit_eq_filter]
  constructor
  · apply Finset.ext
    intro x
    simp only [Finset.mem_union, List.mem_toFinset, List.mem_map, hp1, hp2,
      List.mem_filter]
    constructor
    · rintro (⟨a, ⟨ha, _⟩, hal⟩ | ⟨a, ⟨ha, _⟩, hal⟩) <;> exact ⟨a, ha, hal⟩
    · rintro ⟨a, ha, hal⟩
      have hstr := (hks a ha).1
      have hne := (hks a ha).2
      have hkey : ¬(pyLower (pyStrip a)).isEmpty := by
        rw [hstr]
        simp [String.isEmpty_iff, pyLower_eq_empty_iff]
        exact hne
      by_cases hin : pyIn (pyLower (pyStrip a)) (pyLower cvText)
      · exact Or.inl ⟨a, ⟨ha, by simp [hkey, hin]⟩, hal⟩
      · exact Or.inr ⟨a, ⟨ha, by simp [hkey, hin]⟩, hal⟩
  · apply Finset.ext
    intro x
    simp only [Finset.mem_inter, List.mem_toFinset, List.mem_map, hp1, hp2,
      List.mem_filter, Finset.not_mem_empty, iff_false, not_and]
    rintro ⟨a, ⟨ha, hpa⟩, hal⟩ ⟨b, ⟨hb, hpb⟩, hbl⟩
    have hstra := (hks a ha).1
    have hstrb := (hks b hb).1
    simp only [Bool.and_eq_true, Bool.not_eq_true'] at hpa hpb
    rw [hstra] at hpa
    rw [hstrb] at hpb
    have : pyLower a = pyLower b := by rw [hal, hbl]
    rw [this] at hpa
    rw [hpa.2] at hpb
    simp at hpb

theorem length_filter_partition {α : Type} (p : α → Bool) (l : List α) :
    (l.filter p).length + (l.filter (fun x => !p x)).length = l.length := by
  induction l with
  | nil => rfl
  | cons a t ih =>
    by_cases h : p a <;> simp [List.filter_cons, h, ← ih] <;> omega

/-- C4 counterexample. The claim asserts `coverage == 100` iff `missing` is
empty and `keywords` non-empty, for every keyword list; the scorer silently
skips blank keywords, so for `keywords = ["a", " "]` matched against the CV
text `"a"` the missing list is empty and the keyword list non-empty, yet
coverage is 50, not 100. -/
theorem c4_coverage_counterexample :
    (presence_score "a" ["a", " "]).2.1 = [] ∧
    (["a", " "] : List String) ≠ [] ∧
    (presence_score "a" ["a", " "]).2.2 ≠ 100 := by
  refine ⟨by decide, by decide, ?_⟩
  have hlen : (presenceSplit (pyLower "a") ["a", " "]).1.length = 1 := by decide
  have hmax : (max 1 (["a", " "] : List String).length : Nat) = 2 := by decide
  simp only [presence_score]
  rw [hlen, hmax]
  norm_num

/-- C4 (amended). Coverage formula and bounds: for every CV text and keyword
list, `coverage = 100 * |present| / max 1 |keywords|`, `0 ≤ coverage ≤ 100`,
and `coverage = 0` iff `keywords` or `present` is empty; provided every
keyword is non-blank after trimming — true of everything the extractor
produces — also `coverage = 100` iff `missing` is empty and `keywords` is
non-empty. -/
theorem c4_coverage_bounds (cvText : String) (ks : List String)
    (h : ∀ kw ∈ ks, pyLower (pyStrip kw) ≠ "") :
    (presence_score cvText ks).2.2 =
      100 * (presence_score cvText ks).1.length / ((max 1 ks.length : Nat) : ℚ) ∧
    0 ≤ (presence_score cvText ks).2.2 ∧
    (presence_score cvText ks).2.2 ≤ 100 ∧
    ((presence_score cvText ks).2.2 = 0 ↔
      ks = [] ∨ (presence_score cvText ks).1 = []) ∧
    ((presence_score cvText ks).2.2 = 100 ↔
      (presence_score cvText ks).2.1 = [] ∧ ks ≠ []) := by
  have hp1 : (presence_score cvText ks).1 =
      ks.filter (fun kw => !(pyLower (pyStrip kw)).isEmpty &&
        pyIn (pyLower (pyStrip kw)) (pyLower cvText)) := by
    simp only [presence_score, presenceSplit_eq_filter]
  have hp2 : (presence_score cvText ks).2.1 =
      ks.filter (fun kw => !(pyLower (pyStrip kw)).isEmpty &&
        !pyIn (pyLower (pyStrip kw)) (pyLower cvText)) := by
    simp only [presence_score, presenceSplit_eq_filter]
  have hc : (presence_score cvText ks).2.2 =
      (((presence_score cvText ks).1.length : ℚ) / ((max 1 ks.length : Nat) : ℚ)) * 100 := by
    simp only [presence_score]
  have htot1 : 1 ≤ (max 1 ks.length : Nat) := le_max_left 1 ks.length
  have htpos : (0 : ℚ) < ((max 1 ks.length : Nat) : ℚ) := by
    exact_mod_cast Nat.lt_of_lt_of_le Nat.zero_lt_one htot1
  have htne : ((max 1 ks.length : Nat) : ℚ) ≠ 0 := ne_of_gt htpos
  have hple : (presence_score cvText ks).1.length ≤ ks.length := by
    rw [hp1]
    exact List.length_filter_le _ _
  have hplemax : ((presence_score cvText ks).1.length : ℚ) ≤
      ((max 1 ks.length : Nat) : ℚ) := by
    exact_mod_cast Nat.le_trans hple (le_max_right 1 ks.length)
  have hpartition : (presence_score cvText ks).1.length +
      (presence_score cvText ks).2.1.length = ks.length := by
    rw [hp1, hp2]
    have hcong : ks.filter (fun kw => !(pyLower (pyStrip kw)).isEmpty &&
        !pyIn (pyLower (pyStrip kw)) (pyLower cvText)) =
        ks.filter (fun kw => !(!(pyLower (pyStrip kw)).isEmpty &&
          pyIn (pyLower (pyStrip kw)) (pyLower cvText))) := by
      apply List.filter_congr
      intro kw hkw
      have hne : ¬(pyLower (pyStrip kw)).isEmpty := by
        simp [String.isEmpty_iff]
        exact h kw hkw
      simp [hne]
    rw [hcong]
    exact length_filter_partition _ ks
  refine ⟨by rw [hc]; ring, ?_, ?_, ?_, ?_⟩
  · rw [hc]
    positivity
  · rw [hc, div_mul_eq_mul_div, div_le_iff htpos]
    nlinarith [hplemax]
  · rw [hc]
    constructor
    · intro h0
      rcases mul_eq_zero.mp h0 with h0 | h0
      · rcases div_eq_zero_iff.mp h0 with h0 | h0
        · right
          rw [← List.length_eq_zero]
          exact_mod_cast h0
        · exact absurd h0 htne
      · norm_num at h0
    · intro h0
      have hplen : (presence_score cvText ks).1 = [] := by
        rcases h0 with h0 | h0
        · rw [hp1, h0]
          rfl
        · exact h0
      rw [hplen]
      simp
  · rw [hc]
    constructor
    · intro h100
      have hdiv : ((presence_score cvText ks).1.length : ℚ) /
          ((max 1 ks.length : Nat) : ℚ) = 1 := by
        apply mul_right_cancel₀ (b := (100 : ℚ)) (by norm_num)
        rw [one_mul]
        exact h100
      have hlen : ((presence_score cvText ks).1.length : ℚ) =
          ((max 1 ks.length : Nat) : ℚ) := by
        field_simp at hdiv
        exact_mod_cast hdiv
      have hlenN : (presence_score cvText ks).1.length = (max 1 ks.length : Nat) := by
        exact_mod_cast hlen
      constructor
      · by_cases hks : ks = []
        · subst hks
          simp at hlenN
          rw [hp1] at hlenN
          simp at hlenN
        · have hkslen : 1 ≤ ks.length := by
            rcases ks with _ | ⟨a, t⟩
            · exact absurd rfl hks
            · simp
          rw [max_eq_right hkslen] at hlenN
          have : (presence_score cvText ks).2.1.length = 0 := by omega
          rw [← List.length_eq_zero]
          exact this
      · intro hks
        subst hks
        rw [hp1] at hlenN
        simp at hlenN
    · rintro ⟨hm, hks⟩
      have hkslen : 1 ≤ ks.length := by
        rcases ks with _ | ⟨a, t⟩
        · exact absurd rfl hks
        · simp
      have hmlen : (presence_score cvText ks).2.1.length = 0 := by
        rw [hm]
        rfl
      have hplen : (presence_score cvText ks).1.length = ks.length := by omega
      have hne2 : ((ks.length : Nat) : ℚ) ≠ 0 := by
        have : ks.length ≠ 0 := by omega
        exact_mod_cast this
      rw [hplen, max_eq_right hkslen, div_self hne2, one_mul]

/-- C4 witness: the amended theorem applied to the keyword list `["a"]` and CV
text `"a"`, whose coverage is exactly 100. -/
theorem c4_coverage_witness :
    (∀ kw ∈ (["a"] : List String), pyLower (pyStrip kw) ≠ "") ∧
    ((presence_score "a" ["a"]).2.2 = 100 ↔
      (presence_score "a" ["a"]).2.1 = [] ∧ (["a"] : List String) ≠ []) :=
  ⟨by decide, (c4_coverage_bounds "a" ["a"] (by decide)).2.2.2.2⟩

set_option maxRecDepth 40000 in
/-- C2 counterexample. `job_hash` is case-sensitive: hashing `" Foo Bar "` and
`"foo bar"` yields different digests, refuting the claimed case-insensitive
identity `job_hash(" Foo Bar ") == job_hash("foo bar")`. -/
theorem c2_job_hash_counterexample :
    job_hash " Foo Bar " ≠ job_hash "foo bar" := by
  decide

/-- C2 (amended). `job_hash` is a pure function of the whitespace-trimmed
text: any two texts equal after stripping leading and trailing whitespace
hash identically, and nothing besides the text (no clock, no salt) enters the
computation. Case-folding is not applied; see the counterexample. -/
theorem c2_job_hash_trim_insensitive (s1 s2 : String)
    (h : pyStrip s1 = pyStrip s2) : job_hash s1 = job_hash s2 := by
  unfold job_hash
  rw [h]

/-- C2 witness: two texts differing only in surrounding whitespace share a
hash. -/
theorem c2_job_hash_trim_witness :
    pyStrip " Foo Bar " = pyStrip "Foo Bar" ∧
    job_hash " Foo Bar " = job_hash "Foo Bar" :=
  ⟨by decide, c2_job_hash_trim_insensitive " Foo Bar " "Foo Bar" (by decide)⟩

/-- C8. Keyword extractor contract: for every text, language and bound, the
output has length at most `max_keywords`, no two entries are equal under
case-insensitive comparison, and the output is an in-order subsequence of the
stripped frequency-ranked candidate list (first-seen order preserved). -/
theorem c8_extract_contract (text lang : String) (n : Nat) :
    (extract_keywords text lang n).length ≤ n ∧
    ((extract_keywords text lang n).map pyLower).Nodup ∧
    (extract_keywords text lang n).Sublist
      ((rankedCleaned text lang).map pyStrip) := by
  refine ⟨?_, ?_, ?_⟩
  · unfold extract_keywords
    exact List.length_take_le n _
  · unfold extract_keywords
    have hnd := (dedupeGo_lower_nodup (rankedCleaned text lang) []).1
    exact hnd.sublist ((List.take_sublist n _).map pyLower)
  · unfold extract_keywords dedupe_keep_order
    exact (List.take_sublist n _).trans (dedupeGo_sublist _ [])

/-! Scaffolded-state lemmas: `ensure_jd_state` is a no-op (up to lookups) on a
record that already carries the scaffolding, and always leaves the record
scaffolded. -/

theorem ensure_of_scaffolded (cv : Cv) (hscaf : jdScaffolded cv = true) :
    ensure_jd_state cv = dSet cv "jd_state" (.vDict (jdStateOf cv)) := by
  unfold jdScaffolded at hscaf
  simp only [Bool.and_eq_true] at hscaf
  obtain ⟨⟨hjd, hjt⟩, hst⟩ := hscaf
  rcases hm : dGet cv "jd_state" with _ | v
  · rw [hm] at hst
    simp at hst
  · rcases v with s | xs | js | q
    · rw [hm] at hst; simp at hst
    · rw [hm] at hst; simp at hst
    · rw [hm] at hst
      simp only [Bool.and_eq_true] at hst
      obtain ⟨⟨⟨h1, h2⟩, h3⟩, h4⟩ := hst
      simp only [ensure_jd_state]
      rw [show ensureCopyJd cv = cv from by
        unfold ensureCopyJd
        rw [if_neg (by simp [hjd])]]
      rw [show dSetD cv "job_description" (.vStr "") = cv from by
        unfold dSetD
        rw [if_pos hjd]]
      rw [show dSetD cv "jd_text"
          (orEmpty (dGetD cv "job_description" (.vStr ""))) = cv from by
        unfold dSetD
        rw [if_pos hjt]]
      rw [show dSetD cv "jd_state" (.vDict []) = cv from by
        unfold dSetD
        rw [if_pos (by rw [dHas_isSome, hm]; rfl)]]
      rw [show ensureStateDict cv = cv from by
        unfold ensureStateDict
        rw [hm]]
      have hjsof : jdStateOf cv = js := by
        unfold jdStateOf
        rw [hm]
      rw [show ensureStateKeys (jdStateOf cv) = jdStateOf cv from by
        rw [hjsof]
        unfold ensureStateKeys
        rw [show dSetD js "active_job_id" (.vStr "") = js from by
          unfold dSetD; rw [if_pos h1]]
        rw [show dSetD js "jobs" (.vDict []) = js from by
          unfold dSetD; rw [if_pos h2]]
        rw [show dSetD js "current_role_hint" (.vStr "") = js from by
          unfold dSetD; rw [if_pos h3]]
        unfold dSetD
        rw [if_pos h4]]
      rfl
    · rw [hm] at hst; simp at hst

theorem jdStateOf_of_scaffolded (cv : Cv) (hscaf : jdScaffolded cv = true) :
    ∃ js, dGet cv "jd_state" = some (.vDict js) ∧ jdStateOf cv = js := by
  unfold jdScaffolded at hscaf
  simp only [Bool.and_eq_true] at hscaf
  obtain ⟨-, hst⟩ := hscaf
  rcases hm : dGet cv "jd_state" with _ | v
  · rw [hm] at hst; simp at hst
  · rcases v with s | xs | js | q
    · rw [hm] at hst; simp at hst
    · rw [hm] at hst; simp at hst
    · exact ⟨js, rfl, by unfold jdStateOf; rw [hm]⟩
    · rw [hm] at hst; simp at hst

theorem dGet_ensure_scaffolded (cv : Cv) (hscaf : jdScaffolded cv = true)
    (k : String) : dGet (ensure_jd_state cv) k = dGet cv k := by
  rw [ensure_of_scaffolded cv hscaf, dGet_dSet]
  split
  · rename_i hk
    subst hk
    obtain ⟨js, hjs, hjsof⟩ := jdStateOf_of_scaffolded cv hscaf
    rw [hjs, hjsof]
  · rfl

theorem jdScaffolded_of (cv : Cv) (js : List (String × Val))
    (hjd : (dGet cv "job_description").isSome = true)
    (hjt : (dGet cv "jd_text").isSome = true)
    (hjs : dGet cv "jd_state" = some (.vDict js))
    (h1 : dHas js "active_job_id" = true) (h2 : dHas js "jobs" = true)
    (h3 : dHas js "current_role_hint" = true)
    (h4 : dHas js "last_jd_hash" = true) :
    jdScaffolded cv = true := by
  unfold jdScaffolded
  rw [hjs, dHas_isSome, dHas_isSome, hjd, hjt]
  simp [h1, h2, h3, h4]

theorem dHas_ensureStateKeys (js : List (String × Val)) :
    dHas (ensureStateKeys js) "active_job_id" = true ∧
    dHas (ensureStateKeys js) "jobs" = true ∧
    dHas (ensureStateKeys js) "current_role_hint" = true ∧
    dHas (ensureStateKeys js) "last_jd_hash" = true := by
  unfold ensureStateKeys
  refine ⟨?_, ?_, ?_, ?_⟩
  · rw [dHas_isSome, dGet_dSetD, if_neg (by decide), dGet_dSetD,
      if_neg (by decide), dGet_dSetD, if_neg (by decide), dGet_dSetD,
      if_pos rfl]
    rfl
  · rw [dHas_isSome, dGet_dSetD, if_neg (by decide), dGet_dSetD,
      if_neg (by decide), dGet_dSetD, if_pos rfl]
    rfl
  · rw [dHas_isSome, dGet_dSetD, if_neg (by decide), dGet_dSetD, if_pos rfl]
    rfl
  · rw [dHas_isSome, dGet_dSetD, if_pos rfl]
    rfl

theorem jdScaffolded_ensure (cv : Cv) :
    jdScaffolded (ensure_jd_state cv) = true := by
  simp only [ensure_jd_state, setJdState]
  set cv1 := dSetD (ensureCopyJd cv) "job_description" (.vStr "") with hcv1
  set cv2 := dSetD cv1 "jd_text" (orEmpty (dGetD cv1 "job_description"
    (.vStr ""))) with hcv2
  set cv3 := dSetD cv2 "jd_state" (.vDict []) with hcv3
  set cv4 := ensureStateDict cv3 with hcv4
  apply jdScaffolded_of _ (ensureStateKeys (jdStateOf cv4))
  · rw [dGet_dSet, if_neg (by decide), hcv4,
      dGet_ensureStateDict_ne _ _ (by decide), hcv3, dGet_dSetD,
      if_neg (by decide), hcv2, dGet_dSetD, if_neg (by decide), hcv1,
      dGet_dSetD, if_pos rfl]
    rfl
  · rw [dGet_dSet, if_neg (by decide), hcv4,
      dGet_ensureStateDict_ne _ _ (by decide), hcv3, dGet_dSetD,
      if_neg (by decide), hcv2, dGet_dSetD, if_pos rfl]
    rfl
  · rw [dGet_dSet, if_pos rfl]
  · exact (dHas_ensureStateKeys _).1
  · exact (dHas_ensureStateKeys _).2.1
  · exact (dHas_ensureStateKeys _).2.2.1
  · exact (dHas_ensureStateKeys _).2.2.2

theorem gcj_snd_ensure (cv : Cv) :
    (get_current_jd (ensure_jd_state cv)).2 = (get_current_jd cv).2 := by
  have h1 := dGet_ensure_scaffolded (ensure_jd_state cv) (jdScaffolded_ensure cv)
  simp only [get_current_jd, dGetD]
  rw [apply_ite Prod.snd, apply_ite Prod.snd, h1 "job_description", h1 "jd_text"]

/-- C9. Empty-JD behavior: for every CV record whose current JD text is empty
or whitespace-only, `analyze_jd` is not an error and returns a well-formed
analysis with empty `keywords`, `present` and `missing` and coverage 0. -/
theorem c9_empty_jd (cv : Cv) (role_hint : String) (profile : Option Val)
    (n : Nat) (h : (get_current_jd cv).2 = "") :
    aGet ((analyze_jd cv role_hint profile n).2) "keywords" = some (.vList []) ∧
    aGet ((analyze_jd cv role_hint profile n).2) "present" = some (.vList []) ∧
    aGet ((analyze_jd cv role_hint profile n).2) "missing" = some (.vList []) ∧
    aGet ((analyze_jd cv role_hint profile n).2) "coverage" = some (.vRat 0) ∧
    isWellFormedAnalysis ((analyze_jd cv role_hint profile n).2) = true := by
  have hjd : pyStrip (get_current_jd (ensure_jd_state cv)).2 = "" := by
    rw [gcj_snd_ensure, h]
    rfl
  refine ⟨?_, ?_, ?_, ?_, ?_⟩ <;>
    simp [analyze_jd, hjd, analysisValOf, aGet, dGet, isWellFormedAnalysis,
      String.isEmpty_iff]

/-- C9 witness: a CV whose JD field holds only spaces analyzes to the empty
well-formed analysis. -/
theorem c9_empty_jd_witness :
    (get_current_jd [("job_description", Val.vStr "   ")]).2 = "" ∧
    aGet ((analyze_jd [("job_description", Val.vStr "   ")] "" none 80).2)
      "keywords" = some (.vList []) :=
  ⟨by decide,
   (c9_empty_jd [("job_description", .vStr "   ")] "" none 80 (by decide)).1⟩

set_option maxRecDepth 100000 in
/-- C1 (code bug). Cache staleness: after analyzing the JD
`"python developer"` against a CV with no matching content and then adding
the missing keyword `"python"` to the `modern_skills_headline` field, the JD
hash is unchanged, so `auto_update_on_change` declines to re-analyze and
`get_current_analysis` still serves the cached analysis listing `"python"`
as missing — even though recomputing the scorer against the updated CV
marks `"python"` present (and not missing). -/
theorem c1_cache_freshness_bug :
    (∃ ms, aGet ((get_current_analysis (auto_update_on_change c1Cv2 none)).2)
        "missing" = some (.vList ms) ∧ Val.vStr "python" ∈ ms) ∧
    "python" ∈ (presence_score (cv_to_text c1Cv2)
      (extract_keywords "python developer" "en" 80)).1 ∧
    "python" ∉ (presence_score (cv_to_text c1Cv2)
      (extract_keywords "python developer" "en" 80)).2.1 := by
  refine ⟨⟨[.vStr "python developer", .vStr "developer", .vStr "python"],
    ?_, ?_⟩, ?_, ?_⟩ <;> decide

set_option maxRecDepth 100000 in
/-- C5 (code bug). Cache corruption is not self-healing: with a corrupt
(field-less) entry stored under the active job id, `get_current_analysis`
returns the corrupt value as-is instead of treating it as a miss, although a
recomputation (`analyze_jd`) would produce a well-formed analysis. -/
theorem c5_cache_corruption_bug :
    (get_current_analysis c5Cv).2 = .vDict [] ∧
    isWellFormedAnalysis (.vDict []) = false ∧
    isWellFormedAnalysis ((analyze_jd c5Cv "" none 80).2) = true := by
  refine ⟨?_, ?_, ?_⟩ <;> decide

set_option maxRecDepth 100000 in
/-- C6 counterexample. Applying missing keywords to the empty CV record
mutates more than the extra-keywords field: it installs the `jd_state`
scaffolding, refuting the claim that only the designated field is modified. -/
theorem c6_frame_counterexample :
    dGet (apply_missing_to_extra_keywords ([] : Cv) 25) "jd_state" ≠
      dGet ([] : Cv) "jd_state" := by
  decide

set_option maxRecDepth 100000 in
/-- C7 counterexample. With a cached missing entry containing a newline
(`"x\ny"`), applying twice appends again: the first application stores the
entry verbatim, the second re-reads the field split at the newline and no
longer recognizes the entry, so the field value differs, refuting idempotence
for arbitrary missing lists. -/
theorem c7_apply_counterexample :
    dGet (apply_missing_to_extra_keywords
        (apply_missing_to_extra_keywords c7Cv 25) 25) "modern_keywords_extra" ≠
      dGet (apply_missing_to_extra_keywords c7Cv 25) "modern_keywords_extra" := by
  decide

set_option maxRecDepth 1000000 in
/-- C10 counterexample. A call of the apply operation on a CV whose
extra-keywords field already holds 81 distinct entries and whose current
analysis has no missing keyword leaves the field untouched, so after the call
the field still holds more than 80 newline-separated entries — refuting the
claim that every call leaves at most 80. -/
theorem c10_cap_counterexample :
    80 < (extraKeywordEntries (apply_missing_to_extra_keywords c10Cv 25)).length := by
  decide

/-! Entries round trip and cache-hit shape lemmas for the apply theorems. -/

theorem isEmpty_false_of_ne (s : String) (h : s ≠ "") : s.isEmpty = false := by
  cases he : s.isEmpty
  · rfl
  · exact absurd ((String.isEmpty_iff s).mp he) h

theorem entriesOfStr_joinNl (l : List String)
    (h : ∀ x ∈ l, pyStrip x = x ∧ x ≠ "" ∧ noLineBreaks x) :
    entriesOfStr (joinNl l) = l := by
  unfold entriesOfStr
  rw [pyStrip_joinNl l (fun x hx => ⟨(h x hx).1, (h x hx).2.1⟩)]
  rw [pySplitlines_joinNl l (fun x hx => ⟨(h x hx).2.1, (h x hx).2.2⟩)]
  have hmap : l.map pyStrip = l := by
    conv_rhs => rw [← List.map_id l]
    exact List.map_congr_left (fun x hx => (h x hx).1)
  rw [hmap]
  apply List.filter_eq_self.mpr
  intro x hx
  rw [isEmpty_false_of_ne x (h x hx).2.1]
  rfl

theorem merged_props (el sm : List String)
    (hel : ∀ x ∈ el, noLineBreaks x)
    (hsm : ∀ x ∈ sm, noLineBreaks x) :
    ∀ x ∈ (dedupeGo [] (el ++ sm)).take 80,
      pyStrip x = x ∧ x ≠ "" ∧ noLineBreaks x := by
  intro x hx
  have hx2 := List.mem_of_mem_take hx
  obtain ⟨hstr, hne⟩ := dedupeGo_stripped _ _ x hx2
  refine ⟨hstr, hne, ?_⟩
  apply dedupeGo_noLB _ _ _ x hx2
  intro y hy
  rcases List.mem_append.mp hy with hy | hy
  exacts [hel y hy, hsm y hy]

theorem entriesOfStr_noLB (s : String) :
    ∀ x ∈ entriesOfStr s, noLineBreaks x := by
  intro x hx
  exact (entries_props (pyStrip s) x hx).2.2

theorem jdStateOf_ensure_scaffolded (cv : Cv) (hscaf : jdScaffolded cv = true) :
    jdStateOf (ensure_jd_state cv) = jdStateOf cv := by
  unfold jdStateOf
  rw [dGet_ensure_scaffolded cv hscaf]

theorem gca_hit (cv : Cv) (jobs : List (String × Val)) (jid : String)
    (ad : List (String × Val))
    (hscaf : jdScaffolded cv = true)
    (hjobs : dGetD (jdStateOf cv) "jobs" (.vDict []) = .vDict jobs)
    (hjid : orEmpty (dGetD (jdStateOf cv) "active_job_id" (.vStr "")) = .vStr jid)
    (hne : jid ≠ "")
    (hmem : dHas jobs jid = true)
    (hana : dGetD jobs jid (.vDict []) = .vDict ad) :
    get_current_analysis cv = (ensure_jd_state cv, .vDict ad) := by
  simp only [get_current_analysis, jdStateOf_ensure_scaffolded cv hscaf,
    hjobs, hjid]
  rw [if_pos (by rw [hmem, isEmpty_false_of_ne jid hne]; rfl)]
  rw [hana]

theorem apply_hit_empty (cv : Cv) (limit : Nat) (jobs : List (String × Val))
    (jid : String) (ad : List (String × Val))
    (hscaf : jdScaffolded cv = true)
    (hjobs : dGetD (jdStateOf cv) "jobs" (.vDict []) = .vDict jobs)
    (hjid : orEmpty (dGetD (jdStateOf cv) "active_job_id" (.vStr "")) = .vStr jid)
    (hne : jid ≠ "")
    (hmem : dHas jobs jid = true)
    (hana : dGetD jobs jid (.vDict []) = .vDict ad)
    (hmiss : dGetD ad "missing" (.vList []) = .vList []) :
    apply_missing_to_extra_keywords cv limit = ensure_jd_state cv := by
  simp only [apply_missing_to_extra_keywords,
    gca_hit cv jobs jid ad hscaf hjobs hjid hne hmem hana, hmiss]
  simp

theorem asStr_orEmpty_vStr (s : String) : asStr (orEmpty (.vStr s)) = s := by
  by_cases hs : s = ""
  · subst hs
    rfl
  · unfold orEmpty
    rw [if_pos (show truthy (Val.vStr s) = true from by
      show (!s.isEmpty) = true
      rw [isEmpty_false_of_ne s hs]
      rfl)]
    rfl

theorem apply_hit_write (cv : Cv) (limit : Nat) (jobs : List (String × Val))
    (jid : String) (ad : List (String × Val)) (ms : List String)
    (hscaf : jdScaffolded cv = true)
    (hjobs : dGetD (jdStateOf cv) "jobs" (.vDict []) = .vDict jobs)
    (hjid : orEmpty (dGetD (jdStateOf cv) "active_job_id" (.vStr "")) = .vStr jid)
    (hne : jid ≠ "")
    (hmem : dHas jobs jid = true)
    (hana : dGetD jobs jid (.vDict []) = .vDict ad)
    (hmiss : dGetD ad "missing" (.vList []) = .vList (ms.map Val.vStr))
    (hms : ms ≠ []) :
    apply_missing_to_extra_keywords cv limit =
      dSet (ensure_jd_state cv) "modern_keywords_extra"
        (.vStr (joinNl ((dedupe_keep_order
          (extraKeywordEntries cv ++
            ((ms.take limit).map pyStrip).filter (fun x => !x.isEmpty))).take 80))) := by
  simp only [apply_missing_to_extra_keywords,
    gca_hit cv jobs jid ad hscaf hjobs hjid hne hmem hana, hmiss]
  rw [if_neg (by simpa using hms)]
  have hfield : dGetD (ensure_jd_state cv) "modern_keywords_extra" (.vStr "") =
      dGetD cv "modern_keywords_extra" (.vStr "") := by
    unfold dGetD
    rw [dGet_ensure_scaffolded cv hscaf]
  rw [hfield]
  have hnew : ((ms.map Val.vStr).take limit).map (fun x => pyStrip (pyStr x)) =
      (ms.take limit).map pyStrip := by
    rw [← List.map_take, List.map_map]
    apply List.map_congr_left
    intro x _
    rfl
  rw [hnew]
  rfl

/-- C6 (amended). Frame property of apply: for every CV record and limit, the
apply operation changes no key outside the extra-keywords field and the JD
bookkeeping keys its analysis lookup maintains (`job_description`, `jd_text`,
`jd_state`, `ats_analysis`); and whenever the current analysis offers no
nonempty missing list, the extra-keywords field itself is unchanged. In the
embedding the operation is total, so no error is raised on any record. -/
theorem c6_frame_property (cv : Cv) (limit : Nat) :
    (∀ k, k ∉ (["modern_keywords_extra", "job_description", "jd_text",
        "jd_state", "ats_analysis"] : List String) →
      dGet (apply_missing_to_extra_keywords cv limit) k = dGet cv k) ∧
    (analysisMissingEmpty ((get_current_analysis cv).2) = true →
      dGet (apply_missing_to_extra_keywords cv limit) "modern_keywords_extra" =
        dGet cv "modern_keywords_extra") := by
  constructor
  · intro k hk
    simp only [List.mem_cons, List.not_mem_nil, or_false, not_or] at hk
    obtain ⟨h5, h1, h2, h3, h4⟩ := hk
    exact dGet_apply_frame cv limit k h1 h2 h3 h4 h5
  · intro hempty
    have hg : dGet ((get_current_analysis cv).1) "modern_keywords_extra" =
        dGet cv "modern_keywords_extra" :=
      dGet_gca_frame cv _ (by decide) (by decide) (by decide) (by decide)
    simp only [apply_missing_to_extra_keywords]
    split
    · split
      · split
        · exact hg
        · rename_i e d hd x ms hms hne
          exfalso
          simp only [analysisMissingEmpty, analysisMissing, hd, hms] at hempty
          exact hne hempty
      · exact hg
    · exact hg

/-- C6 witness: on a CV holding one unrelated field and no analysis, applying
missing keywords preserves that field and the (absent) extra-keywords field. -/
theorem c6_frame_witness :
    ("foo" ∉ (["modern_keywords_extra", "job_description", "jd_text",
        "jd_state", "ats_analysis"] : List String)) ∧
    dGet (apply_missing_to_extra_keywords [("foo", Val.vStr "bar")] 25) "foo" =
      dGet [("foo", Val.vStr "bar")] "foo" ∧
    analysisMissingEmpty
      ((get_current_analysis [("foo", Val.vStr "bar")]).2) = true ∧
    dGet (apply_missing_to_extra_keywords [("foo", Val.vStr "bar")] 25)
        "modern_keywords_extra" =
      dGet [("foo", Val.vStr "bar")] "modern_keywords_extra" :=
  ⟨by decide,
   (c6_frame_property [("foo", Val.vStr "bar")] 25).1 "foo" (by decide),
   by decide,
   (c6_frame_property [("foo", Val.vStr "bar")] 25).2 (by decide)⟩

theorem jdScaffolded_dSet_ne (x : Cv) (k : String) (v : Val)
    (h1 : k ≠ "job_description") (h2 : k ≠ "jd_text") (h3 : k ≠ "jd_state") :
    jdScaffolded (dSet x k v) = jdScaffolded x := by
  simp [jdScaffolded, dHas_isSome, dGet_dSet, Ne.symm h1, Ne.symm h2, Ne.symm h3]

theorem jdStateOf_dSet_ne (x : Cv) (k : String) (v : Val)
    (h : k ≠ "jd_state") :
    jdStateOf (dSet x k v) = jdStateOf x := by
  simp [jdStateOf, dGet_dSet, Ne.symm h]

theorem extraEntries_dSet_joinNl (x : Cv) (l : List String)
    (h : ∀ y ∈ l, pyStrip y = y ∧ y ≠ "" ∧ noLineBreaks y) :
    extraKeywordEntries (dSet x "modern_keywords_extra" (.vStr (joinNl l))) = l := by
  unfold extraKeywordEntries dGetD
  rw [dGet_dSet, if_pos rfl]
  simp only [Option.getD_some]
  rw [asStr_orEmpty_vStr]
  exact entriesOfStr_joinNl l h

/-- C7 (amended). Apply idempotence on the cache-hit path: for a scaffolded CV
whose JD state carries a nonempty active job id with a stored analysis whose
`missing` value is a list of line-break-free strings, applying the missing
keywords twice with the same limit leaves the extra-keywords field with the
same final value as applying them once: the case-insensitive deduplication,
which keeps existing entries first and then the new ones in insertion order,
admits no duplicate insertion on the second pass. -/
theorem c7_apply_idempotent (cv : Cv) (limit : Nat)
    (jobs : List (String × Val)) (jid : String) (ad : List (String × Val))
    (ms : List String)
    (hscaf : jdScaffolded cv = true)
    (hjobs : dGetD (jdStateOf cv) "jobs" (.vDict []) = .vDict jobs)
    (hjid : orEmpty (dGetD (jdStateOf cv) "active_job_id" (.vStr "")) = .vStr jid)
    (hne : jid ≠ "")
    (hmem : dHas jobs jid = true)
    (hana : dGetD jobs jid (.vDict []) = .vDict ad)
    (hmiss : dGetD ad "missing" (.vList []) = .vList (ms.map Val.vStr))
    (hnl : ∀ s ∈ ms, noLineBreaks s) :
    dGet (apply_missing_to_extra_keywords
        (apply_missing_to_extra_keywords cv limit) limit)
      "modern_keywords_extra" =
      dGet (apply_missing_to_extra_keywords cv limit)
        "modern_keywords_extra" := by
  have hE : jdScaffolded (ensure_jd_state cv) = true := jdScaffolded_ensure cv
  have hjsE : jdStateOf (ensure_jd_state cv) = jdStateOf cv :=
    jdStateOf_ensure_scaffolded cv hscaf
  by_cases hms : ms = []
  · subst hms
    have h1 : apply_missing_to_extra_keywords cv limit = ensure_jd_state cv :=
      apply_hit_empty cv limit jobs jid ad hscaf hjobs hjid hne hmem hana
        (by simpa using hmiss)
    rw [h1]
    have h2 : apply_missing_to_extra_keywords (ensure_jd_state cv) limit =
        ensure_jd_state (ensure_jd_state cv) :=
      apply_hit_empty _ limit jobs jid ad hE (by rw [hjsE]; exact hjobs)
        (by rw [hjsE]; exact hjid) hne hmem hana (by simpa using hmiss)
    rw [h2, dGet_ensure_scaffolded _ hE]
  · have hw1 := apply_hit_write cv limit jobs jid ad ms hscaf hjobs hjid hne
      hmem hana hmiss hms
    rw [hw1]
    set el := extraKeywordEntries cv with helx
    set sm := ((ms.take limit).map pyStrip).filter (fun x => !x.isEmpty)
      with hsmx
    set v1 := joinNl ((dedupe_keep_order (el ++ sm)).take 80) with hv1x
    set cvA := dSet (ensure_jd_state cv) "modern_keywords_extra" (.vStr v1)
      with hcvAx
    have hsmNoLB : ∀ x ∈ sm, noLineBreaks x := by
      intro x hx
      rw [hsmx, List.mem_filter] at hx
      obtain ⟨hm, _⟩ := hx
      obtain ⟨y, hy, hxy⟩ := List.mem_map.mp hm
      subst hxy
      exact noLineBreaks_pyStrip y (hnl y (List.mem_of_mem_take hy))
    have helNoLB : ∀ x ∈ el, noLineBreaks x := by
      intro x hx
      rw [helx] at hx
      exact entriesOfStr_noLB _ x hx
    have hmrg : ∀ x ∈ (dedupe_keep_order (el ++ sm)).take 80,
        pyStrip x = x ∧ x ≠ "" ∧ noLineBreaks x := by
      intro x hx
      exact merged_props el sm helNoLB hsmNoLB x hx
    have hscafA : jdScaffolded cvA = true := by
      rw [hcvAx, jdScaffolded_dSet_ne _ _ _ (by decide) (by decide) (by decide)]
      exact hE
    have hjsA : jdStateOf cvA = jdStateOf cv := by
      rw [hcvAx, jdStateOf_dSet_ne _ _ _ (by decide)]
      exact hjsE
    have hw2 := apply_hit_write cvA limit jobs jid ad ms hscafA
      (by rw [hjsA]; exact hjobs) (by rw [hjsA]; exact hjid) hne hmem hana
      hmiss hms
    rw [hw2]
    have helA : extraKeywordEntries cvA = (dedupe_keep_order (el ++ sm)).take 80 := by
      rw [hcvAx, hv1x]
      exact extraEntries_dSet_joinNl _ _ hmrg
    rw [dGet_dSet, if_pos rfl, dGet_dSet, if_pos rfl, helA]
    show some (Val.vStr (joinNl ((dedupe_keep_order
      ((dedupe_keep_order (el ++ sm)).take 80 ++ sm)).take 80))) =
      some (Val.vStr v1)
    rw [merge_idem el sm, hv1x]

/-- C7 witness: the idempotence theorem applied to a concrete scaffolded CV
whose cached analysis misses `aws` and `terraform`. -/
theorem c7_apply_idem_witness :
    jdScaffolded c7wCv = true ∧
    dGet (apply_missing_to_extra_keywords
        (apply_missing_to_extra_keywords c7wCv 25) 25)
      "modern_keywords_extra" =
      dGet (apply_missing_to_extra_keywords c7wCv 25)
        "modern_keywords_extra" :=
  ⟨by decide,
   c7_apply_idempotent c7wCv 25
     [("h1", .vDict [("missing", .vList [.vStr "aws", .vStr "terraform"])])]
     "h1" [("missing", .vList [.vStr "aws", .vStr "terraform"])]
     ["aws", "terraform"]
     (by decide) (by decide) (by decide) (by decide) (by decide) (by decide)
     (by decide)
     (show ∀ s ∈ (["aws", "terraform"] : List String),
        ∀ c ∈ s.data, isLineBreak c = false from by decide)⟩

theorem newOnes_eq (ms : List String) (limit : Nat) :
    (((ms.map Val.vStr).take limit).map (fun x => pyStrip (pyStr x))).filter
      (fun x => !x.isEmpty) =
      ((ms.take limit).map pyStrip).filter (fun x => !x.isEmpty) := by
  rw [← List.map_take, List.map_map]
  congr 1

/-- C10 (amended, implicit cap). First conjunct: whenever the cached analysis
for the current job offers a nonempty list of line-break-free missing
keywords, the extra-keywords field holds at most 80 newline-separated entries
after apply, because the merged list is truncated to its first 80 entries.
Second conjunct: if the field already holds 80 or more case-insensitively
distinct entries, every entry present after apply was already present before —
the new keywords are silently dropped, regardless of the limit argument. -/
theorem c10_cap (cv : Cv) (limit : Nat) :
    (∀ d ms, (get_current_analysis cv).2 = .vDict d →
      dGetD d "missing" (.vList []) = .vList (ms.map Val.vStr) →
      ms ≠ [] → (∀ s ∈ ms, noLineBreaks s) →
      (extraKeywordEntries
        (apply_missing_to_extra_keywords cv limit)).length ≤ 80) ∧
    (((extraKeywordEntries cv).map pyLower).Nodup →
      80 ≤ (extraKeywordEntries cv).length →
      ∀ e ∈ extraKeywordEntries (apply_missing_to_extra_keywords cv limit),
        e ∈ extraKeywordEntries cv) := by
  constructor
  · intro d ms hd hmsv hms hnl
    have hcond : (ms.map Val.vStr).isEmpty = false := by
      cases ms with
      | nil => exact absurd rfl hms
      | cons a t => rfl
    simp only [apply_missing_to_extra_keywords, hd, hmsv]
    rw [if_neg (by rw [hcond]; simp)]
    rw [newOnes_eq ms limit]
    set el := ((pySplitlines (pyStrip (asStr (orEmpty
      (dGetD (get_current_analysis cv).1 "modern_keywords_extra"
        (Val.vStr "")))))).map pyStrip).filter (fun x => !x.isEmpty) with helx
    set sm := ((ms.take limit).map pyStrip).filter (fun x => !x.isEmpty)
      with hsmx
    have helNoLB : ∀ x ∈ el, noLineBreaks x := by
      intro x hx
      rw [helx] at hx
      exact (entries_props _ x hx).2.2
    have hsmNoLB : ∀ x ∈ sm, noLineBreaks x := by
      intro x hx
      rw [hsmx, List.mem_filter] at hx
      obtain ⟨hm, _⟩ := hx
      obtain ⟨y, hy, hxy⟩ := List.mem_map.mp hm
      subst hxy
      exact noLineBreaks_pyStrip y (hnl y (List.mem_of_mem_take hy))
    rw [extraEntries_dSet_joinNl _ ((dedupe_keep_order (el ++ sm)).take 80)
      (fun y hy => merged_props el sm helNoLB hsmNoLB y hy)]
    rw [List.length_take]
    exact min_le_left _ _
  · intro hnodup hlen e he
    have hfield : dGet ((get_current_analysis cv).1) "modern_keywords_extra" =
        dGet cv "modern_keywords_extra" :=
      dGet_gca_frame cv _ (by decide) (by decide) (by decide) (by decide)
    have helG : extraKeywordEntries ((get_current_analysis cv).1) =
        extraKeywordEntries cv := by
      unfold extraKeywordEntries dGetD
      rw [hfield]
    simp only [apply_missing_to_extra_keywords] at he
    split at he
    · split at he
      · split at he
        · rw [helG] at he
          exact he
        · have helG2 : (((pySplitlines (pyStrip (asStr (orEmpty
              (dGetD (get_current_analysis cv).1 "modern_keywords_extra"
                (Val.vStr "")))))).map pyStrip).filter
              (fun x => !x.isEmpty)) = extraKeywordEntries cv := helG
          rw [helG2] at he
          have hprops : ∀ x ∈ extraKeywordEntries cv,
              pyStrip x = x ∧ x ≠ "" := by
            intro x hx
            exact ⟨(entries_props _ x hx).1, (entries_props _ x hx).2.1⟩
          have hdec : ∀ newX : List String,
              (dedupe_keep_order (extraKeywordEntries cv ++ newX)).take 80 =
                (extraKeywordEntries cv).take 80 := by
            intro newX
            show (dedupeGo [] _).take 80 = _
            rw [dedupeGo_append,
              dedupeGo_fixpoint _ [] hprops hnodup (by simp),
              List.take_append_of_le_length hlen]
          rw [hdec] at he
          have htake : ∀ y ∈ (extraKeywordEntries cv).take 80,
              pyStrip y = y ∧ y ≠ "" ∧ noLineBreaks y := by
            intro y hy
            have hy2 := List.mem_of_mem_take hy
            exact ⟨(hprops y hy2).1, (hprops y hy2).2,
              entriesOfStr_noLB _ y hy2⟩
          rw [extraEntries_dSet_joinNl _ ((extraKeywordEntries cv).take 80)
            htake] at he
          exact List.mem_of_mem_take he
      · rw [helG] at he
        exact he
    · rw [helG] at he
      exact he

set_option maxRecDepth 1000000 in
/-- C10 witness: the cap theorem applied to a scaffolded CV already holding 80
distinct entries whose cached analysis offers the further keyword `newkw`. -/
theorem c10_cap_witness :
    (get_current_analysis c10wCv).2 =
      .vDict [("missing", .vList [.vStr "newkw"])] ∧
    (extraKeywordEntries
      (apply_missing_to_extra_keywords c10wCv 25)).length ≤ 80 ∧
    ∀ e ∈ extraKeywordEntries (apply_missing_to_extra_keywords c10wCv 25),
      e ∈ extraKeywordEntries c10wCv :=
  ⟨by decide,
   (c10_cap c10wCv 25).1 [("missing", .vList [.vStr "newkw"])] ["newkw"]
     (by decide) (by decide) (by decide)
     (show ∀ s ∈ (["newkw"] : List String), ∀ c ∈ s.data,
        isLineBreak c = false from by decide),
   (c10_cap c10wCv 25).2 (by decide) (by decide)⟩
